import Mathlib

/-!
Verification of the managed heap core of `src/refs.c`: a reference table over
a two-half-space memory pool, hybrid reference counting plus stop-and-copy
garbage collection.

The algorithms (`assign_reference`, `make_ref`, `deref`, `incref`, `decref`,
`apply_to_neighbors`, `move`, `clean_cycles`, `collect_garbage`) are shallowly
embedded from `src/refs.c`.  The declarations that `refs.c` includes from
headers not present in the repository snapshot (`refs.h`: `value_t`,
`reference_t`, the sentinels, the value shapes; `config.h`: `INITIAL_SIZE`;
`mm.h`: the pool allocator; `eval.h`: `foreach_global`) are modelled from the
specification, as marked in their doc comments.

Machine integers are modelled as `Nat`/`Int`; the unsigned `ref_count` field
wraps modulo `2^32` where the code increments or decrements it.  Recursive
routines (`decref`, `move`) take a fuel argument and return `Option`:
`none` models a run that aborts (assertion failure / null-pointer access) or
exhausts the fuel; every theorem about a run is conditioned on the run
producing `some` final state, and witnesses exhibit concrete such runs.
-/

namespace Refs

/-- Modelled from the spec (§3): the value-type tag of `refs.h` is not in
`src/`; only the shape categories matter to the core (`FREE`, scalar tags,
and the three composite shapes `LIST`, `DICT`, `REF_ARRAY`). -/
inductive VType where
  | free
  | int
  | string
  | list
  | dict
  | refArray
  deriving DecidableEq, Repr

/-- Modelled from the spec (§3): `value_t` of `refs.h` is not in `src/`.
Every value carries a header (`type`, `value_size`, unsigned `ref_count`)
followed by the payload; the payload's child handles are `fields` and any
scalar payload is `scalar`.  `value_size` is the total byte size. -/
structure Val where
  vtype : VType
  vsize : Nat
  refCount : Nat
  fields : List Int
  scalar : Int
  deriving DecidableEq, Repr

/-- The alignment of value_t structs in the memory pool (`refs.c` line 21). -/
def ALIGNMENT : Nat := 8

/-- Modelled from the spec (§6): `INITIAL_SIZE` comes from `config.h`, which
is not in `src/`; it is the initial reference-table capacity on first growth.
Its concrete value is immaterial to every claim; any positive constant. -/
def INITIAL_SIZE : Nat := 8

/-- Modelled from the spec (§3): `ref_count` is an unsigned count; we model
it as a 32-bit unsigned integer, so its arithmetic wraps modulo `2 ^ 32`. -/
def RCMOD : Nat := 2 ^ 32

/-- Modelled from the spec (§3): `NULL_REF` from `refs.h` (not in `src/`) is
a reserved sentinel that is never a valid table index; `deref`'s range
assertion (`ref >= 0`) shows the sentinels are negative. -/
def NULL_REF : Int := -1

/-- Modelled from the spec (§3): `TOMBSTONE_REF` from `refs.h` (not in
`src/`), the second reserved sentinel, distinct from `NULL_REF`. -/
def TOMBSTONE_REF : Int := -2

/-- The debug fill pattern `0xCC` of `make_ref` (line 131), read back as a
(junk) handle: `0xCCCCCCCC` as a signed 32-bit `reference_t`. -/
def JUNK_REF : Int := -858993460

/-- The module-local state of `refs.c` together with the state of the
external pool allocator (`mm.h`, modelled from the spec §4.2/§6): `mem` maps
pool addresses to values, `bump`/`allocBase`/`poolSize` are the bump
allocator over the active half-space, `pool`/`to_pool`/`halfSize` are the
module globals of `refs.c`, `table` is the reference table (length
`num_refs`) and `maxRefs` is `max_refs`. -/
structure RState where
  mem : Nat → Option Val
  bump : Nat
  allocBase : Nat
  poolSize : Nat
  pool : Nat
  to_pool : Nat
  halfSize : Nat
  table : List (Option Nat)
  maxRefs : Nat

/-- `num_refs`: the number of references currently in the table. -/
def numRefs (s : RState) : Nat := s.table.length

/-- `ref_table[r]` for an index `r` (entries past `num_refs` read as empty). -/
def tEntry (s : RState) (r : Nat) : Option Nat := s.table.getD r none

/-- Write one value into the pool memory at an address. -/
def memUpd (s : RState) (a : Nat) (v : Val) : RState :=
  { s with mem := fun x => if x = a then some v else s.mem x }

/-- Modelled from the spec (§6): `is_pool_address(p)` is true iff `p` lies
within the active half-space managed by the allocator. -/
def is_pool_address (s : RState) (p : Nat) : Bool :=
  decide (s.allocBase ≤ p) && decide (p < s.allocBase + s.poolSize)

/-- Modelled from the spec (§6): `mm_init(size, region)` (re)initializes the
bump allocator over `region`, discarding any prior state for that region. -/
def mm_init (sz : Nat) (region : Nat) (s : RState) : RState :=
  { s with
    mem := fun a => if region ≤ a ∧ a < region + sz then none else s.mem a,
    bump := 0, allocBase := region, poolSize := sz }

/-- Modelled from the spec (§6): `mm_malloc(size)` bump-allocates `size`
(pre-rounded) bytes in the active half-space, or returns `NULL` when the
half-space cannot satisfy the request.  The returned slot's header is in
`FREE` state and carries the allocation size (`make_ref` reads
`value->value_size` and asserts `value->type == VAL_FREE`). -/
def mm_malloc (sz : Nat) (s : RState) : Option (Nat × RState) :=
  if s.bump + sz ≤ s.poolSize then
    let a := s.allocBase + s.bump
    some (a, { (memUpd s a ⟨VType.free, sz, 0, [], 0⟩) with bump := s.bump + sz })
  else
    none

/-- Modelled from the spec (§6): `mm_free(value*)` returns a value's bytes to
the allocator; its header becomes `FREE`. -/
def mm_free (a : Nat) (s : RState) : RState :=
  { s with mem := fun x =>
      if x = a then (s.mem a).map (fun v => { v with vtype := VType.free }) else s.mem x }

/-- `init_refs` (lines 62–79): split the region into two halves, initialize
the allocator on the first half (size rounded down to a multiple of
`ALIGNMENT`), start with an empty reference table.  The byte region is
modelled at base address `0`. -/
def init_refs (memory_size : Nat) : RState :=
  let half := memory_size / 2
  { mem := fun _ => none, bump := 0, allocBase := 0,
    poolSize := half / ALIGNMENT * ALIGNMENT,
    pool := 0, to_pool := half, halfSize := half, table := [], maxRefs := 0 }

/-- The scan of `assign_reference` (lines 86–91): index of the first unused
(`NULL`) slot of the reference table, if any. -/
def firstEmpty : List (Option Nat) → Option Nat
  | [] => none
  | none :: _ => some 0
  | some _ :: l => (firstEmpty l).map (· + 1)

/-- `assign_reference` (lines 83–109): reuse the lowest unused slot, else
extend the table, doubling `max_refs` (from `INITIAL_SIZE` when it was `0`)
when it is full.  `reallocOk` models whether the C `realloc` succeeds;
`none` models the fatal path (`fprintf` + `exit(1)`), which never returns a
reference to the caller. -/
def assign_reference (reallocOk : Bool) (a : Nat) (s : RState) :
    Option (RState × Int) :=
  match firstEmpty s.table with
  | some i => some ({ s with table := s.table.set i (some a) }, (i : Int))
  | none =>
    if s.table.length = s.maxRefs then
      if reallocOk then
        some ({ s with
                maxRefs := if s.maxRefs = 0 then INITIAL_SIZE else 2 * s.maxRefs,
                table := s.table ++ [some a] },
              (s.table.length : Int))
      else
        none
    else
      some ({ s with table := s.table ++ [some a] }, (s.table.length : Int))

/-- The `0xCC` debug payload of a fresh value (line 131), read back through
the shape-specific structs (`refs.h`, modelled from the spec §3): composite
shapes see junk handles, scalar shapes have no child handles. -/
def mkFields (ty : VType) (sz : Nat) : List Int :=
  match ty with
  | VType.list => [JUNK_REF]
  | VType.dict => [JUNK_REF, JUNK_REF]
  | VType.refArray => List.replicate (sz / ALIGNMENT) JUNK_REF
  | _ => []

/-- `make_ref` (lines 113–135): round the size up to a multiple of
`ALIGNMENT`, allocate from the pool (returning `NULL_REF` on exhaustion,
with no other effect), initialize the value with `ref_count = 1` and the
`0xCC` debug payload, and assign a reference. -/
def make_ref (reallocOk : Bool) (ty : VType) (size : Nat) (s : RState) :
    Option (RState × Int) :=
  let sz := (size + ALIGNMENT - 1) / ALIGNMENT * ALIGNMENT
  match mm_malloc sz s with
  | none => some (s, NULL_REF)
  | some (a, s1) =>
    let s2 := memUpd s1 a ⟨ty, sz, 1, mkFields ty sz, 0⟩
    assign_reference reallocOk a s2

/-- `deref` (lines 139–150): assert `0 ≤ ref < num_refs` (outer `none` is
the failed assertion), then return the table entry unchecked — the
`is_pool_address` assertion is commented out in the source, so a `NULL`
(empty) entry or an out-of-pool pointer is returned as-is. -/
def deref (s : RState) (ref : Int) : Option (Option Nat) :=
  if 0 ≤ ref ∧ ref < (numRefs s : Int) then some (tEntry s ref.toNat) else none

/-- `apply_to_neighbors` (lines 179–194): the child handles the shared
traversal applies its function to — the backing array of a `LIST`, the two
arrays of a `DICT`, the `capacity` inline handles of a `REF_ARRAY`, nothing
for any other shape. -/
def neighbors (v : Val) : List Int :=
  match v.vtype with
  | VType.list => v.fields.take 1
  | VType.dict => v.fields.take 2
  | VType.refArray => v.fields
  | _ => []

/-- `incref` (lines 199–202): `deref` the handle (no sentinel guard in the
source!) and increment the target's `ref_count`.  `none` models the aborted
run: the range assertion of `deref` failing, or the `ref_count` write through
a `NULL` pointer. -/
def incref (s : RState) (ref : Int) : Option RState :=
  match deref s ref with
  | none => none
  | some none => none
  | some (some a) =>
    match s.mem a with
    | none => none
    | some v => some (memUpd s a { v with refCount := (v.refCount + 1) % RCMOD })

/-- `decref` (lines 211–221) together with its `apply_to_neighbors` recursion
(`Sum.inl` is `decref(ref)`, `Sum.inr` a list of pending child handles).
A non-sentinel handle is dereferenced and its `ref_count` decremented
(unsigned, wrapping); on reaching `0` every child handle is decrefed via the
traversal, then the value is freed and the table entry emptied.  The fuel
only bounds recursion depth; `none` is an aborted or fuel-starved run. -/
def decrefA : Nat → RState → Sum Int (List Int) → Option RState
  | 0, _, _ => none
  | fuel + 1, s, Sum.inl ref =>
    if ref = TOMBSTONE_REF ∨ ref = NULL_REF then some s
    else
      match deref s ref with
      | none => none
      | some none => none
      | some (some a) =>
        match s.mem a with
        | none => none
        | some v =>
          let rc := (v.refCount + (RCMOD - 1)) % RCMOD
          let s1 := memUpd s a { v with refCount := rc }
          if rc = 0 then
            match decrefA fuel s1 (Sum.inr (neighbors v)) with
            | none => none
            | some s2 =>
              let s3 := mm_free a s2
              some { s3 with table := s3.table.set ref.toNat none }
          else
            some s1
  | _ + 1, s, Sum.inr [] => some s
  | fuel + 1, s, Sum.inr (r :: rs) =>
    match decrefA fuel s (Sum.inl r) with
    | none => none
    | some s' => decrefA fuel s' (Sum.inr rs)

/-- `decref` on a single handle. -/
def decref (fuel : Nat) (s : RState) (ref : Int) : Option RState :=
  decrefA fuel s (Sum.inl ref)

/-- `move` (lines 232–251) together with its `apply_to_neighbors` recursion
(`Sum.inl` is `move(ref)`, `Sum.inr` a list of pending child handles).
A non-sentinel handle is dereferenced; if its value is not yet in the new
active half-space it is evacuated: `ref_count` reset to `1`, a slot
allocated, the value copied, the table entry updated, and the children moved
recursively; if it is already there, its `ref_count` is incremented. -/
def moveA : Nat → RState → Sum Int (List Int) → Option RState
  | 0, _, _ => none
  | fuel + 1, s, Sum.inl ref =>
    if ref = NULL_REF ∨ ref = TOMBSTONE_REF then some s
    else
      match deref s ref with
      | none => none
      | some none => none
      | some (some a) =>
        match s.mem a with
        | none => none
        | some v =>
          if is_pool_address s a then
            some (memUpd s a { v with refCount := (v.refCount + 1) % RCMOD })
          else
            let v1 := { v with refCount := 1 }
            let s1 := memUpd s a v1
            match mm_malloc v.vsize s1 with
            | none => none
            | some (p, s2) =>
              let s3 := memUpd s2 p v1
              let s4 := { s3 with table := s3.table.set ref.toNat (some p) }
              moveA fuel s4 (Sum.inr (neighbors v1))
  | _ + 1, s, Sum.inr [] => some s
  | fuel + 1, s, Sum.inr (r :: rs) =>
    match moveA fuel s (Sum.inl r) with
    | none => none
    | some s' => moveA fuel s' (Sum.inr rs)

/-- `move` on a single handle (also `stop_and_copy`, which discards the
root's name and calls `move`). -/
def move (fuel : Nat) (s : RState) (ref : Int) : Option RState :=
  moveA fuel s (Sum.inl ref)

/-- `clean_cycles` (lines 267–273): empty every reference-table entry whose
pointer is not a pool address of the (new) active half-space. -/
def clean_cycles (s : RState) : RState :=
  { s with table := s.table.map (fun e =>
      match e with
      | some a => if is_pool_address s a then some a else none
      | none => none) }

/-- `collect_garbage` (lines 275–301): re-initialize the allocator onto the
to-space, evacuate every root (`foreach_global(stop_and_copy)`, with the
evaluator's root set modelled from the spec §6 as the list `roots` of root
handles), sweep the table with `clean_cycles`, and swap the half-space
pointers.  The `interactive` diagnostics are pure output and not modelled. -/
def collect_garbage (fuel : Nat) (roots : List Int) (s : RState) :
    Option RState :=
  let s1 := mm_init (s.halfSize / ALIGNMENT * ALIGNMENT) s.to_pool s
  match moveA fuel s1 (Sum.inr roots) with
  | none => none
  | some s2 =>
    let s3 := clean_cycles s2
    some { s3 with pool := s3.to_pool, to_pool := s3.pool }

/-! ### Derived notions used to state the claims -/

/-- The `ref_count` of the value a table entry points to. -/
def rcAt (s : RState) (r : Nat) : Option Nat :=
  match tEntry s r with
  | none => none
  | some a => (s.mem a).map Val.refCount

/-- The payload (everything but `ref_count`) of the value a table entry
points to: type tag, `value_size`, child handles and scalar payload —
the bytes `memcpy` carries that are not overwritten by the collector. -/
def payloadAt (s : RState) (r : Nat) : Option (VType × Nat × List Int × Int) :=
  match tEntry s r with
  | none => none
  | some a => (s.mem a).map (fun v => (v.vtype, v.vsize, v.fields, v.scalar))

/-- The child-handle list of the value a table entry points to (empty for an
empty entry or a missing value). -/
def childrenOf (s : RState) (r : Nat) : List Int :=
  match tEntry s r with
  | none => []
  | some a =>
    match s.mem a with
    | none => []
    | some v => neighbors v

/-- Whether a table entry already points into the (new) active half-space —
the collector's "already evacuated?" test, read off the table. -/
def inNew (s : RState) (r : Nat) : Bool :=
  match tEntry s r with
  | none => false
  | some a => is_pool_address s a

/-- Reachability over a child-handle graph: `Reach g r q` holds when `q` can
be reached from table index `r` by following non-sentinel child handles. -/
inductive Reach (g : Nat → List Int) : Nat → Nat → Prop where
  | refl (r : Nat) : Reach g r r
  | step {r q : Nat} (c : Int) (hc : c ∈ g r) (hc0 : 0 ≤ c)
      (h : Reach g c.toNat q) : Reach g r q

/-- Sum of `f` over the table indices `0 .. n-1`. -/
def sumf (n : Nat) (f : Nat → Nat) : Nat := ((List.range n).map f).sum

/-- The number of composite-child edges reaching `r` from values behind
non-empty table entries (counting duplicate occurrences). -/
def liveEdges (s : RState) (r : Nat) : Nat :=
  sumf (numRefs s) (fun v =>
    if tEntry s v = none then 0 else (childrenOf s v).count (r : Int))

/-- A non-empty table entry is well formed outside a collection: it points
into the from-space half `[pool, pool + poolSize)`, at an existing value of
nonzero size whose `ref_count` is a representable unsigned value. -/
def entryOK (s : RState) (a : Nat) : Bool :=
  decide (s.pool ≤ a) && decide (a < s.pool + s.poolSize) &&
  (match s.mem a with
   | none => false
   | some v => decide (v.refCount < RCMOD) && decide (1 ≤ v.vsize))

/-- No two non-empty table entries point to the same value (spec §3,
invariant 2). -/
def injT (s : RState) : Bool :=
  (List.range (numRefs s)).all fun r =>
    (List.range (numRefs s)).all fun r' =>
      decide (r = r') || decide (tEntry s r = none) ||
        decide (tEntry s r ≠ tEntry s r')

/-- Pre-collection well-formedness of a state (spec §3, invariants 1–4):
the two half-spaces partition the byte region, the allocator's active size
fits in a half, every non-empty entry points at a live value inside the
from-space half, and entries are injective. -/
def preWF (s : RState) : Bool :=
  (decide (s.pool = 0 ∧ s.to_pool = s.halfSize) ||
     decide (s.pool = s.halfSize ∧ s.to_pool = 0)) &&
  decide (s.poolSize ≤ s.halfSize) &&
  (s.table.all fun e =>
    match e with
    | none => true
    | some a => entryOK s a) &&
  injT s

/-! ### Concrete states used by the witnesses -/

/-- A 16-byte `INT` value. -/
def vInt : Val := ⟨VType.int, 16, 1, [], 7⟩

/-- A state whose single table entry points at a value outside the active
half-space — exactly the configuration `deref` is applied to during a
collection, before the entry's value has been evacuated. -/
def sOut : RState :=
  { mem := fun a => if a = 999 then some vInt else none,
    bump := 0, allocBase := 0, poolSize := 64,
    pool := 0, to_pool := 1024, halfSize := 1024,
    table := [some 999], maxRefs := 8 }

/-- A state with a single, empty, in-range table entry (as left behind by a
`decref` that reached zero or by a collection sweep). -/
def sEmptied : RState :=
  { mem := fun _ => none,
    bump := 0, allocBase := 0, poolSize := 64,
    pool := 0, to_pool := 1024, halfSize := 1024,
    table := [none], maxRefs := 8 }

/-- A state whose reference table is full (no empty slot, `num_refs` equal
to `max_refs`), forcing `assign_reference` to grow the table. -/
def sFull : RState :=
  { mem := fun a => if a = 0 then some vInt else none,
    bump := 16, allocBase := 0, poolSize := 64,
    pool := 0, to_pool := 1024, halfSize := 1024,
    table := [some 0], maxRefs := 1 }

/-- A small state whose pool is almost exhausted: 8 free bytes left. -/
def sTight : RState :=
  { mem := fun a => if a = 0 then some vInt else none,
    bump := 56, allocBase := 0, poolSize := 64,
    pool := 0, to_pool := 1024, halfSize := 1024,
    table := [some 0], maxRefs := 8 }

/-- The number of edges into `r` from the values behind the table entries
listed in `L` (counting duplicate occurrences). -/
def inDeg (s : RState) (L : List Nat) (r : Nat) : Nat :=
  (L.map (fun v => (childrenOf s v).count ((r : Nat) : Int))).sum

/-- The handles a `decref`/`move` task is about to process. -/
def argList : Sum Int (List Int) → List Int
  | Sum.inl r => [r]
  | Sum.inr l => l

/-- Executable check that table index `r` of a garbage region `L` with last
external handle `h` is well formed: a live value whose `ref_count` equals
the external edge (1 for the value `h` names) plus its in-degree inside
`L`, and whose child handles are sentinels or stay inside `L`. -/
def entryCheck (s : RState) (L : List Nat) (h : Int) (r : Nat) : Bool :=
  match tEntry s r with
  | none => false
  | some a =>
    match s.mem a with
    | none => false
    | some v =>
      decide (v.refCount < RCMOD) && decide (1 ≤ v.refCount) &&
      decide (v.refCount = (if ((r : Nat) : Int) = h then 1 else 0) + inDeg s L r) &&
      ((neighbors v).all fun c =>
        decide (c = NULL_REF) || decide (c = TOMBSTONE_REF) ||
        (decide (0 ≤ c) && decide (c.toNat ∈ L)))

/-- Invariant of the `decref` recursion over a garbage region: `L` lists the
still-live table indices of the region, `G` the multiset (as a list) of
decrements still to be applied.  Every member is a live value whose
`ref_count` is exactly its pending decrements plus its in-degree within the
region, child handles never leave the region, pending handles target the
region, and no two table entries alias. -/
structure DecInv (s : RState) (L : List Nat) (G : List Int) : Prop where
  nodup : L.Nodup
  lt : ∀ r ∈ L, r < numRefs s
  entry : ∀ r ∈ L, ∃ a v, tEntry s r = some a ∧ s.mem a = some v ∧
    v.refCount < RCMOD ∧ 1 ≤ v.refCount ∧
    v.refCount = G.count ((r : Nat) : Int) + inDeg s L r ∧
    ∀ c ∈ neighbors v, c = NULL_REF ∨ c = TOMBSTONE_REF ∨ (0 ≤ c ∧ c.toNat ∈ L)
  pend : ∀ c ∈ G, c = NULL_REF ∨ c = TOMBSTONE_REF ∨ (0 ≤ c ∧ c.toNat ∈ L)
  inj : ∀ r r' a, tEntry s r = some a → tEntry s r' = some a → r = r'

/-- First step of the concrete handle-reuse run: `make_ref` on a fresh heap. -/
def runA : RState × Int :=
  (make_ref true VType.int 16 (init_refs 128)).getD (init_refs 128, 0)

/-- Second step of the concrete handle-reuse run: drop the handle. -/
def runB : RState :=
  (decref 5 runA.1 runA.2).getD runA.1

/-- Third step of the concrete handle-reuse run: a second `make_ref`. -/
def runC : RState × Int :=
  (make_ref true VType.int 8 runB).getD (runB, 0)

/-- The `ref_count` behind a table entry, defaulting to 0. -/
def rcGet (s : RState) (r : Nat) : Nat := (rcAt s r).getD 0

/-- How many arrivals a `move` task contributes to table index `r`: one if
the task is `move(r)` itself, the multiplicity of `r` in a pending child
list. -/
def arrCount : Sum Int (List Int) → Nat → Nat
  | Sum.inl e, r => if e = ((r : Nat) : Int) then 1 else 0
  | Sum.inr l, r => l.count ((r : Nat) : Int)

/-- The number of edges into `r` from values evacuated between state `s` and
state `s'` (children read in `s`, where they are still accurate). -/
def edgesNew (s s' : RState) (r : Nat) : Nat :=
  sumf (numRefs s) (fun v =>
    if inNew s' v = true ∧ inNew s v = false then
      (childrenOf s v).count ((r : Nat) : Int)
    else 0)

/-- The table indices a `move` task can touch: those reachable from the
handle (or one of the handles) it processes. -/
def TouchedBy (g : Nat → List Int) : Sum Int (List Int) → Nat → Prop
  | Sum.inl e, r => 0 ≤ e ∧ Reach g e.toNat r
  | Sum.inr l, r => ∃ c ∈ l, 0 ≤ c ∧ Reach g c.toNat r

/-- Invariant of a state during the evacuation phase: the bump pointer is in
bounds, every non-empty entry points either at an already-allocated spot of
the new active half-space or entirely outside it, entries are backed by
values of nonzero size and representable count, and no two entries alias. -/
structure CInv (s : RState) : Prop where
  bound : s.bump ≤ s.poolSize
  entries : ∀ r a, tEntry s r = some a →
    (s.allocBase ≤ a ∧ a < s.allocBase + s.bump) ∨
    a < s.allocBase ∨ s.allocBase + s.poolSize ≤ a
  backed : ∀ r a, tEntry s r = some a →
    ∃ v, s.mem a = some v ∧ v.refCount < RCMOD ∧ 1 ≤ v.vsize
  inj : ∀ r r' a, tEntry s r = some a → tEntry s r' = some a → r = r'

/-- Everything a completed `move` task guarantees, relating the state before
(`s`) and after (`s'`) the task `arg`: the collection invariant is kept;
payloads, child lists, the allocator geometry and the table length are
preserved; already-evacuated entries are stable and evacuation is monotone;
entries not evacuated at the end are untouched (entry and count); newly
evacuated values were reached from the task; children of newly evacuated
values are evacuated; every handle the task names is evacuated; and each
evacuated value's count has absorbed one increment per arrival. -/
structure MoveOut (s : RState) (arg : Sum Int (List Int)) (s' : RState) :
    Prop where
  inv : CInv s'
  payload : ∀ r, payloadAt s' r = payloadAt s r
  child : ∀ r, childrenOf s' r = childrenOf s r
  base : s'.allocBase = s.allocBase
  psize : s'.poolSize = s.poolSize
  pools : s'.pool = s.pool ∧ s'.to_pool = s.to_pool ∧ s'.halfSize = s.halfSize
  tlen : s'.table.length = s.table.length
  stable : ∀ r, inNew s r = true → tEntry s' r = tEntry s r
  mono : ∀ r, inNew s r = true → inNew s' r = true
  frame : ∀ r, inNew s' r = false →
    tEntry s' r = tEntry s r ∧ rcAt s' r = rcAt s r
  reach : ∀ r, inNew s' r = true → inNew s r = true ∨
    TouchedBy (fun v => childrenOf s v) arg r
  closed : ∀ v, inNew s' v = true → inNew s v = false →
    ∀ c ∈ childrenOf s v, 0 ≤ c → inNew s' c.toNat = true
  evac : ∀ e ∈ argList arg, 0 ≤ e → inNew s' e.toNat = true
  count : ∀ r, inNew s' r = true → rcGet s' r =
    ((if inNew s r = true then rcGet s r else 0) + arrCount arg r
      + edgesNew s s' r) % RCMOD

/-- A `LIST` value whose backing array is handle 1. -/
def vListW : Val := ⟨VType.list, 16, 1, [1], 0⟩

/-- A `REF_ARRAY` of capacity 1 holding handle 2. -/
def vArrW : Val := ⟨VType.refArray, 16, 1, [2], 0⟩

/-- An `INT` value. -/
def vIntW : Val := ⟨VType.int, 16, 1, [], 5⟩

/-- A heap holding an acyclic 3-value structure (list → array → int), each
value with `ref_count` 1: handle 0 is the only external handle. -/
def sAcy : RState :=
  { mem := fun a =>
      if a = 0 then some vListW
      else if a = 16 then some vArrW
      else if a = 32 then some vIntW
      else none,
    bump := 48, allocBase := 0, poolSize := 64,
    pool := 0, to_pool := 1024, halfSize := 1024,
    table := [some 0, some 16, some 32], maxRefs := 8 }

/-- The state after dropping the last handle of the acyclic structure. -/
def runD : RState := (decref 10 sAcy 0).getD sAcy

/-- The allocator state at the start of a collection: `collect_garbage`
(line 282) re-initializes the bump allocator onto the to-space. -/
def flipState (s : RState) : RState :=
  mm_init (s.halfSize / ALIGNMENT * ALIGNMENT) s.to_pool s

/-- A `REF_ARRAY` pointing at handle 1 (half of a two-value cycle). -/
def vCycA : Val := ⟨VType.refArray, 16, 1, [1], 0⟩

/-- A `REF_ARRAY` pointing back at handle 0 (the other half). -/
def vCycB : Val := ⟨VType.refArray, 16, 1, [0], 0⟩

/-- A heap holding only a two-value reference cycle (handles 0 ↔ 1) that no
root reaches: the configuration reference counting alone cannot reclaim. -/
def sCyc : RState :=
  { mem := fun a =>
      if a = 0 then some vCycA
      else if a = 16 then some vCycB
      else none,
    bump := 32, allocBase := 0, poolSize := 64,
    pool := 0, to_pool := 64, halfSize := 64,
    table := [some 0, some 16], maxRefs := 8 }

/-- The state after collecting `sCyc` with an empty root set. -/
def runE : RState := (collect_garbage 1 [] sCyc).getD sCyc

/-- A `REF_ARRAY` root value pointing at handles 1 and 2. -/
def vR : Val := ⟨VType.refArray, 16, 1, [1, 2], 0⟩

/-- An `INT` value with two incoming edges (from the root and from `vY`). -/
def vX : Val := ⟨VType.int, 16, 2, [], 5⟩

/-- A `REF_ARRAY` value pointing at handle 1. -/
def vY : Val := ⟨VType.refArray, 16, 1, [1], 0⟩

/-- The DAG of the spec's example: root R (handle 0) points at X (handle 1)
and Y (handle 2), and Y also points at X; so X has two incoming edges. -/
def sDag : RState :=
  { mem := fun a =>
      if a = 0 then some vR
      else if a = 16 then some vX
      else if a = 32 then some vY
      else none,
    bump := 48, allocBase := 0, poolSize := 64,
    pool := 0, to_pool := 64, halfSize := 64,
    table := [some 0, some 16, some 32], maxRefs := 8 }

/-- The state after collecting `sDag` with root handle 0. -/
def runF : RState := (collect_garbage 10 [0] sDag).getD sDag

/-! ### Theorems -/

/-! #### Helper lemmas on the reference table scan -/

theorem getD_set_self {l : List (Option Nat)} {i : Nat} (h : i < l.length)
    (x : Option Nat) : (l.set i x).getD i none = x := by
  simp [List.getElem?_set_self', List.getElem?_eq_getElem h]

theorem getD_set_ne {l : List (Option Nat)} {i j : Nat} (h : i ≠ j)
    (x : Option Nat) : (l.set i x).getD j none = l.getD j none := by
  simp [List.getElem?_set_ne h]

theorem firstEmpty_some : ∀ {l : List (Option Nat)} {i : Nat},
    firstEmpty l = some i →
    i < l.length ∧ l.getD i none = none ∧ ∀ j, j < i → l.getD j none ≠ none := by
  intro l
  induction l with
  | nil => intro i h; simp [firstEmpty] at h
  | cons e l ih =>
    intro i h
    match e with
    | none =>
      simp only [firstEmpty, Option.some.injEq] at h
      subst h
      exact ⟨Nat.succ_pos _, rfl, fun j hj => absurd hj (Nat.not_lt_zero j)⟩
    | some a =>
      simp only [firstEmpty, Option.map_eq_some'] at h
      obtain ⟨i', hi', rfl⟩ := h
      obtain ⟨ha, hb, hc⟩ := ih hi'
      refine ⟨Nat.succ_lt_succ ha, by simpa using hb, ?_⟩
      intro j hj
      match j with
      | 0 => simp
      | Nat.succ j' =>
        simpa using hc j' (Nat.lt_of_succ_lt_succ hj)

theorem firstEmpty_none : ∀ {l : List (Option Nat)},
    firstEmpty l = none → ∀ j, j < l.length → l.getD j none ≠ none := by
  intro l
  induction l with
  | nil => intro _ j hj; simp at hj
  | cons e l ih =>
    intro h j hj
    match e with
    | none => simp [firstEmpty] at h
    | some a =>
      simp only [firstEmpty, Option.map_eq_none'] at h
      match j with
      | 0 => simp
      | Nat.succ j' =>
        simpa using ih h j' (Nat.lt_of_succ_lt_succ hj)

theorem firstEmpty_intro : ∀ {l : List (Option Nat)} {i : Nat},
    i < l.length → l.getD i none = none →
    (∀ j, j < i → l.getD j none ≠ none) → firstEmpty l = some i := by
  intro l
  induction l with
  | nil => intro i h; simp at h
  | cons e l ih =>
    intro i h1 h2 h3
    match e with
    | none =>
      match i with
      | 0 => rfl
      | Nat.succ i' => exact absurd rfl (h3 0 (Nat.succ_pos i'))
    | some a =>
      match i with
      | 0 => simp at h2
      | Nat.succ i' =>
        have := ih (Nat.lt_of_succ_lt_succ h1) (by simpa using h2)
          (fun j hj => by simpa using h3 (j + 1) (Nat.succ_lt_succ hj))
        simp [firstEmpty, this]

/-- What a successful `assign_reference` guarantees: the returned handle is
the lowest empty slot (every lower slot is non-empty and untouched), it now
maps to the assigned value, and nothing outside the table changed. -/
theorem assign_reference_spec {ro : Bool} {a : Nat} {s s' : RState} {h : Int}
    (ha : assign_reference ro a s = some (s', h)) :
    0 ≤ h ∧ h.toNat < s'.table.length ∧
    tEntry s' h.toNat = some a ∧
    (∀ j, j < h.toNat → tEntry s' j = tEntry s j ∧ tEntry s' j ≠ none) ∧
    s'.mem = s.mem ∧ s'.bump = s.bump ∧ s'.allocBase = s.allocBase ∧
    s'.poolSize = s.poolSize := by
  unfold assign_reference at ha
  cases hfe : firstEmpty s.table with
  | some i =>
    rw [hfe] at ha
    simp only [Option.some.injEq, Prod.mk.injEq] at ha
    obtain ⟨h1, h2⟩ := ha
    subst h1
    subst h2
    obtain ⟨hl, _, hlow⟩ := firstEmpty_some hfe
    refine ⟨Int.natCast_nonneg i, ?_, ?_, ?_, rfl, rfl, rfl, rfl⟩
    · simpa using hl
    · simpa [tEntry] using getD_set_self hl (some a)
    · intro j hj
      simp only [Int.toNat_natCast] at hj
      have hne : i ≠ j := by omega
      constructor
      · simpa [tEntry] using getD_set_ne hne (some a)
      · rw [show tEntry { s with table := s.table.set i (some a) } j
              = s.table.getD j none by simpa [tEntry] using getD_set_ne hne (some a)]
        exact hlow j hj
  | none =>
    rw [hfe] at ha
    have hmain : s' = { s with
        maxRefs := if s.table.length = s.maxRefs then
          (if s.maxRefs = 0 then INITIAL_SIZE else 2 * s.maxRefs) else s.maxRefs,
        table := s.table ++ [some a] } ∧ h = (s.table.length : Int) := by
      by_cases hc : s.table.length = s.maxRefs
      · simp only [hc, if_pos rfl] at ha ⊢
        cases ro with
        | false => simp at ha
        | true =>
          simp only [if_true, Option.some.injEq, Prod.mk.injEq] at ha
          exact ⟨by rw [← ha.1]; simp [hc], ha.2.symm⟩
      · simp only [if_neg hc] at ha ⊢
        simp only [Option.some.injEq, Prod.mk.injEq] at ha
        exact ⟨by rw [← ha.1], ha.2.symm⟩
    obtain ⟨rfl, rfl⟩ := hmain
    refine ⟨Int.natCast_nonneg _, ?_, ?_, ?_, rfl, rfl, rfl, rfl⟩
    · simp
    · simp only [tEntry, Int.toNat_natCast]
      rw [List.getD_append_right _ _ _ _ (Nat.le_refl _)]
      simp
    · intro j hj
      simp only [Int.toNat_natCast] at hj
      constructor
      · simpa [tEntry] using List.getD_append _ _ none _ hj
      · rw [show tEntry { s with
              maxRefs := if s.table.length = s.maxRefs then
                (if s.maxRefs = 0 then INITIAL_SIZE else 2 * s.maxRefs)
              else s.maxRefs,
              table := s.table ++ [some a] } j = s.table.getD j none by
            simpa [tEntry] using List.getD_append _ _ none _ hj]
        exact firstEmpty_none hfe j hj

/-- What a successful, non-`NULL_REF` `make_ref` guarantees: a fresh value
with `ref_count = 1` and the debug payload sits behind the returned handle,
which is the lowest slot that was empty. -/
theorem make_ref_spec {ro : Bool} {ty : VType} {size : Nat} {s s' : RState}
    {h : Int} (hm : make_ref ro ty size s = some (s', h)) (hn : h ≠ NULL_REF) :
    0 ≤ h ∧ h.toNat < s'.table.length ∧
    (∃ a, tEntry s' h.toNat = some a ∧
      s'.mem a = some ⟨ty, (size + ALIGNMENT - 1) / ALIGNMENT * ALIGNMENT, 1,
        mkFields ty ((size + ALIGNMENT - 1) / ALIGNMENT * ALIGNMENT), 0⟩) ∧
    (∀ j, j < h.toNat → tEntry s' j = tEntry s j ∧ tEntry s' j ≠ none) := by
  simp only [make_ref, mm_malloc] at hm
  by_cases hc : s.bump + (size + ALIGNMENT - 1) / ALIGNMENT * ALIGNMENT ≤ s.poolSize
  · rw [if_pos hc] at hm
    simp only at hm
    obtain ⟨h0, h1, h2, h3, hmem, _⟩ := assign_reference_spec hm
    refine ⟨h0, h1, ⟨s.allocBase + s.bump, h2, ?_⟩, fun j hj => (h3 j hj)⟩
    rw [hmem]
    simp [memUpd]
  · rw [if_neg hc] at hm
    simp only [Option.some.injEq, Prod.mk.injEq] at hm
    exact absurd hm.2.symm hn

/-- `decref` applied to the `0xCC` junk pattern read back as a handle aborts:
the junk handle is negative but not a sentinel, so `deref`'s range assertion
fails. -/
theorem decrefA_inl_junk (fuel : Nat) (s : RState) :
    decrefA fuel s (Sum.inl JUNK_REF) = none := by
  cases fuel with
  | zero => rfl
  | succ f =>
    have hs : ¬ (JUNK_REF = TOMBSTONE_REF ∨ JUNK_REF = NULL_REF) := by decide
    have hd : deref s JUNK_REF = none := by
      have : ¬ (0 ≤ JUNK_REF ∧ JUNK_REF < (numRefs s : Int)) := by
        intro hc
        exact absurd hc.1 (by decide)
      simp [deref, this]
    simp [decrefA, hs, hd]

theorem decrefA_junk_head (fuel : Nat) (s : RState) (l : List Int) :
    decrefA fuel s (Sum.inr (JUNK_REF :: l)) = none := by
  cases fuel with
  | zero => rfl
  | succ f => simp [decrefA, decrefA_inl_junk]

/-- The child handles of a freshly made value: empty for scalar shapes,
headed by the junk pattern for composite shapes. -/
theorem neighbors_fresh (ty : VType) (sz : Nat) :
    neighbors ⟨ty, sz, 1, mkFields ty sz, 0⟩ = [] ∨
    ∃ l, neighbors ⟨ty, sz, 1, mkFields ty sz, 0⟩ = JUNK_REF :: l := by
  cases ty with
  | list => exact Or.inr ⟨[], rfl⟩
  | dict => exact Or.inr ⟨[JUNK_REF], rfl⟩
  | refArray =>
    cases hk : sz / ALIGNMENT with
    | zero => exact Or.inl (by simp [neighbors, mkFields, hk])
    | succ k =>
      exact Or.inr ⟨List.replicate k JUNK_REF,
        by simp [neighbors, mkFields, hk, List.replicate_succ]⟩
  | free => exact Or.inl rfl
  | int => exact Or.inl rfl
  | string => exact Or.inl rfl

/-- When the slot scan finds an empty slot, the returned handle is exactly
that slot's index. -/
theorem assign_reference_at_firstEmpty {ro : Bool} {a : Nat} {s s' : RState}
    {h : Int} {i : Nat} (hfe : firstEmpty s.table = some i)
    (ha : assign_reference ro a s = some (s', h)) : h = (i : Int) := by
  unfold assign_reference at ha
  rw [hfe] at ha
  simp only [Option.some.injEq, Prod.mk.injEq] at ha
  exact ha.2.symm

/-- When the slot scan finds an empty slot, a successful non-`NULL_REF`
`make_ref` returns exactly that slot's index. -/
theorem make_ref_at_firstEmpty {ro : Bool} {ty : VType} {size : Nat}
    {s s' : RState} {h : Int} {i : Nat} (hfe : firstEmpty s.table = some i)
    (hm : make_ref ro ty size s = some (s', h)) (hn : h ≠ NULL_REF) :
    h = (i : Int) := by
  simp only [make_ref, mm_malloc] at hm
  by_cases hc : s.bump + (size + ALIGNMENT - 1) / ALIGNMENT * ALIGNMENT ≤ s.poolSize
  · rw [if_pos hc] at hm
    simp only at hm
    exact assign_reference_at_firstEmpty (by exact hfe) hm
  · rw [if_neg hc] at hm
    simp only [Option.some.injEq, Prod.mk.injEq] at hm
    exact absurd hm.2.symm hn

/-- **C6.** Handle reuse: in any state, `h1 = make_ref(...)`, `decref(h1)`,
`h2 = make_ref(...)` (no other table operation in between) yields
`h2 == h1` — `assign_reference` hands out the lowest-indexed empty slot, the
first `make_ref` proves every lower slot was occupied, and the `decref`
empties exactly slot `h1`. -/
theorem handle_reuse :
    ∀ (fuel : Nat) (ro ro' : Bool) (ty ty' : VType) (size size' : Nat)
      (s s1 s2 s3 : RState) (h1 h2 : Int),
      make_ref ro ty size s = some (s1, h1) → h1 ≠ NULL_REF →
      decref fuel s1 h1 = some s2 →
      make_ref ro' ty' size' s2 = some (s3, h2) → h2 ≠ NULL_REF →
      h2 = h1 := by
  intro fuel ro ro' ty ty' size size' s s1 s2 s3 h1 h2 hm1 hn1 hd hm2 hn2
  obtain ⟨h0, hlt, ⟨a, hent, hmema⟩, hlow⟩ := make_ref_spec hm1 hn1
  have hcast : ((h1.toNat : Nat) : Int) = h1 := Int.toNat_of_nonneg h0
  cases fuel with
  | zero => simp [decref, decrefA] at hd
  | succ f =>
    have hsent : ¬ (h1 = TOMBSTONE_REF ∨ h1 = NULL_REF) := by
      rintro (rfl | rfl) <;> exact absurd h0 (by decide)
    have hrange : h1 < (numRefs s1 : Int) := by
      rw [← hcast]
      exact_mod_cast hlt
    have hderef : deref s1 h1 = some (some a) := by
      simp only [deref, if_pos (And.intro h0 hrange)]
      exact congrArg some hent
    have hrc0 : (1 + (RCMOD - 1)) % RCMOD = 0 := by decide
    simp only [decref, decrefA, if_neg hsent, hderef, hmema] at hd
    rw [if_pos hrc0] at hd
    rcases neighbors_fresh ty ((size + ALIGNMENT - 1) / ALIGNMENT * ALIGNMENT)
      with hN | ⟨l, hN⟩
    · rw [hN] at hd
      cases f with
      | zero => simp [decrefA] at hd
      | succ f2 =>
        rw [show decrefA (f2 + 1) (memUpd s1 a
              { vtype := ty,
                vsize := (size + ALIGNMENT - 1) / ALIGNMENT * ALIGNMENT,
                refCount := (1 + (RCMOD - 1)) % RCMOD,
                fields := mkFields ty ((size + ALIGNMENT - 1) / ALIGNMENT * ALIGNMENT),
                scalar := 0 }) (Sum.inr ([] : List Int))
            = some (memUpd s1 a
              { vtype := ty,
                vsize := (size + ALIGNMENT - 1) / ALIGNMENT * ALIGNMENT,
                refCount := (1 + (RCMOD - 1)) % RCMOD,
                fields := mkFields ty ((size + ALIGNMENT - 1) / ALIGNMENT * ALIGNMENT),
                scalar := 0 }) from rfl] at hd
        simp only [Option.some.injEq] at hd
        obtain rfl := hd
        have hfe2 : firstEmpty (s1.table.set h1.toNat none) = some h1.toNat :=
          firstEmpty_intro (by simpa using hlt) (getD_set_self hlt none)
            (fun j hj => by
              rw [getD_set_ne (by omega) none]
              exact (hlow j hj).2)
        have h2eq : h2 = ((h1.toNat : Nat) : Int) :=
          make_ref_at_firstEmpty (by exact hfe2) hm2 hn2
        exact h2eq.trans hcast
    · rw [hN, decrefA_junk_head] at hd
      simp at hd

/-- Witness for C6: a concrete full run on a fresh 128-byte heap — allocate,
drop, allocate again; the second handle equals the first. -/
theorem handle_reuse_witness : runC.2 = runA.2 := by
  have hA : make_ref true VType.int 16 (init_refs 128) = some (runA.1, runA.2) := rfl
  have hB : decref 5 runA.1 runA.2 = some runB := rfl
  have hC : make_ref true VType.int 8 runB = some (runC.1, runC.2) := rfl
  have hn1 : runA.2 ≠ NULL_REF := by decide
  have hn2 : runC.2 ≠ NULL_REF := by decide
  exact handle_reuse 5 true true VType.int VType.int 16 8 (init_refs 128)
    runA.1 runB runC.1 runA.2 runC.2 hA hn1 hB hC hn2

/-! #### The decref recursion over a garbage region -/

theorem table_memUpd (s : RState) (a : Nat) (v : Val) :
    (memUpd s a v).table = s.table := rfl

theorem table_mm_free (a : Nat) (s : RState) :
    (mm_free a s).table = s.table := rfl

theorem mem_memUpd_ne {s : RState} {a x : Nat} (h : x ≠ a) (v : Val) :
    (memUpd s a v).mem x = s.mem x := by
  simp [memUpd, h]

theorem mem_memUpd_self (s : RState) (a : Nat) (v : Val) :
    (memUpd s a v).mem a = some v := by
  simp [memUpd]

theorem mem_mm_free_ne {s : RState} {a x : Nat} (h : x ≠ a) :
    (mm_free a s).mem x = s.mem x := by
  simp [mm_free, h]

theorem tEntry_some_lt {s : RState} {j a : Nat} (h : tEntry s j = some a) :
    j < numRefs s := by
  by_contra hc
  rw [tEntry, List.getD_eq_default s.table none (Nat.le_of_not_lt hc)] at h
  exact Option.noConfusion h

/-- The unsigned decrement of a representable positive count is the ordinary
decrement. -/
theorem wrap_dec {n : Nat} (h1 : 1 ≤ n) (h2 : n < RCMOD) :
    (n + (RCMOD - 1)) % RCMOD = n - 1 := by
  have hM : 1 ≤ RCMOD := by decide
  have he : n + (RCMOD - 1) = (n - 1) + RCMOD := by omega
  rw [he, Nat.add_mod_right, Nat.mod_eq_of_lt (by omega)]

theorem natCast_ne_null (x : Nat) : ((x : Nat) : Int) ≠ NULL_REF := by
  intro h
  have := Int.natCast_nonneg x
  rw [h] at this
  exact absurd this (by decide)

theorem natCast_ne_tomb (x : Nat) : ((x : Nat) : Int) ≠ TOMBSTONE_REF := by
  intro h
  have := Int.natCast_nonneg x
  rw [h] at this
  exact absurd this (by decide)

theorem childrenOf_eq_of {s s' : RState} {x : Nat}
    (ht : tEntry s' x = tEntry s x)
    (hm : ∀ a, tEntry s x = some a → s'.mem a = s.mem a) :
    childrenOf s' x = childrenOf s x := by
  unfold childrenOf
  rw [ht]
  cases he : tEntry s x with
  | none => rfl
  | some a =>
    dsimp only
    rw [hm a he]

theorem inDeg_congr {s s' : RState} {L : List Nat}
    (h : ∀ v ∈ L, childrenOf s' v = childrenOf s v) (x : Nat) :
    inDeg s' L x = inDeg s L x := by
  unfold inDeg
  congr 1
  exact List.map_congr_left (fun v hv => by rw [h v hv])

theorem inDeg_erase {s : RState} {L : List Nat} {r : Nat} (hr : r ∈ L)
    (x : Nat) :
    inDeg s L x
      = (childrenOf s r).count ((x : Nat) : Int) + inDeg s (L.erase r) x := by
  unfold inDeg
  have hperm : List.Perm L (r :: L.erase r) := List.perm_cons_erase hr
  rw [(hperm.map _).sum_eq]
  simp

theorem inDeg_zero_not_mem {s : RState} {L : List Nat} {r : Nat}
    (h : inDeg s L r = 0) :
    ∀ v ∈ L, ((r : Nat) : Int) ∉ childrenOf s v := by
  intro v hv
  unfold inDeg at h
  rw [List.sum_eq_zero_iff] at h
  have := h _ (List.mem_map_of_mem _ hv)
  simpa [List.count_eq_zero] using this

theorem injT_sound {s : RState} (h : injT s = true) :
    ∀ r r' a, tEntry s r = some a → tEntry s r' = some a → r = r' := by
  intro r r' a h1 h2
  have hr := tEntry_some_lt h1
  have hr' := tEntry_some_lt h2
  simp only [injT, List.all_eq_true, List.mem_range] at h
  rcases (by simpa using h r hr r' hr' :
      (r = r' ∨ tEntry s r = none) ∨ tEntry s r ≠ tEntry s r') with (h3 | h3) | h3
  · exact h3
  · rw [h1] at h3
    exact Option.noConfusion h3
  · rw [h1, h2] at h3
    exact absurd rfl h3

theorem entryCheck_sound {s : RState} {L : List Nat} {h : Int} {r : Nat}
    (hc : entryCheck s L h r = true) :
    ∃ a v, tEntry s r = some a ∧ s.mem a = some v ∧
      v.refCount < RCMOD ∧ 1 ≤ v.refCount ∧
      v.refCount = (if ((r : Nat) : Int) = h then 1 else 0) + inDeg s L r ∧
      ∀ c ∈ neighbors v, c = NULL_REF ∨ c = TOMBSTONE_REF ∨
        (0 ≤ c ∧ c.toNat ∈ L) := by
  unfold entryCheck at hc
  cases he : tEntry s r with
  | none => rw [he] at hc; exact Bool.noConfusion hc
  | some a =>
    rw [he] at hc
    dsimp only at hc
    cases hm : s.mem a with
    | none => rw [hm] at hc; exact Bool.noConfusion hc
    | some v =>
      rw [hm] at hc
      dsimp only at hc
      simp only [Bool.and_eq_true, decide_eq_true_eq, List.all_eq_true,
        Bool.or_eq_true] at hc
      obtain ⟨⟨⟨hb1, hb2⟩, hb3⟩, hb4⟩ := hc
      refine ⟨a, v, rfl, hm, hb1, hb2, hb3, ?_⟩
      intro c hcm
      rcases hb4 c hcm with (h1 | h1) | h1
      · exact Or.inl h1
      · exact Or.inr (Or.inl h1)
      · exact Or.inr (Or.inr h1)

theorem neighbors_update_rc (v : Val) (n : Nat) :
    neighbors { v with refCount := n } = neighbors v := rfl

/-- The effect of the `decref` recursion on a garbage region: the pending
decrements `argList arg` are consumed; a sub-region `L'` survives with the
invariant re-established for the remaining decrements `F`, every other
member's table entry is emptied, and nothing outside the region is touched. -/
theorem decrefA_region :
    ∀ (fuel : Nat) (s : RState) (arg : Sum Int (List Int)) (s' : RState)
      (L : List Nat) (F : List Int),
      decrefA fuel s arg = some s' →
      DecInv s L (argList arg ++ F) →
      ∃ L' : List Nat,
        (∀ x ∈ L', x ∈ L) ∧
        DecInv s' L' F ∧
        (∀ x ∈ L, x ∉ L' → tEntry s' x = none) ∧
        (∀ j, j ∉ L → tEntry s' j = tEntry s j) ∧
        (∀ j a, j ∉ L → tEntry s j = some a → s'.mem a = s.mem a) ∧
        (∀ x ∈ L', tEntry s' x = tEntry s x ∧ childrenOf s' x = childrenOf s x) ∧
        s'.table.length = s.table.length := by
  intro fuel
  induction fuel with
  | zero =>
    intro s arg s' L F hrun
    exact absurd hrun (by simp [decrefA])
  | succ fuel ih =>
    intro s arg s' L F hrun hinv
    cases arg with
    | inr P =>
      cases P with
      | nil =>
        have hss : s = s' := by simpa [decrefA] using hrun
        subst hss
        exact ⟨L, fun x hx => hx, hinv, fun x hx hnx => absurd hx hnx,
          fun j _ => rfl, fun j a _ _ => rfl, fun x _ => ⟨rfl, rfl⟩, rfl⟩
      | cons r rs =>
        simp only [decrefA] at hrun
        cases hr1 : decrefA fuel s (Sum.inl r) with
        | none => rw [hr1] at hrun; exact absurd hrun (by simp)
        | some s1 =>
          rw [hr1] at hrun
          dsimp only at hrun
          obtain ⟨L1, hsub1, hinv1, hemp1, hfr1, hmem1, hsurv1, hlen1⟩ :=
            ih s (Sum.inl r) s1 L (rs ++ F) hr1 hinv
          obtain ⟨L2, hsub2, hinv2, hemp2, hfr2, hmem2, hsurv2, hlen2⟩ :=
            ih s1 (Sum.inr rs) s' L1 F hrun hinv1
          refine ⟨L2, fun x hx => hsub1 x (hsub2 x hx), hinv2, ?_, ?_, ?_, ?_, ?_⟩
          · intro x hx hnx
            by_cases hx1 : x ∈ L1
            · exact hemp2 x hx1 hnx
            · rw [hfr2 x hx1]
              exact hemp1 x hx hx1
          · intro j hj
            rw [hfr2 j (fun hc => hj (hsub1 j hc)), hfr1 j hj]
          · intro j a hj ha
            have h1 := hfr1 j hj
            rw [hmem2 j a (fun hc => hj (hsub1 j hc)) (by rw [h1, ha]),
              hmem1 j a hj ha]
          · intro x hx
            obtain ⟨ht2, hc2⟩ := hsurv2 x hx
            obtain ⟨ht1, hc1⟩ := hsurv1 x (hsub2 x hx)
            exact ⟨ht2.trans ht1, hc2.trans hc1⟩
          · rw [hlen2, hlen1]
    | inl ref =>
      by_cases hsent : ref = TOMBSTONE_REF ∨ ref = NULL_REF
      · have hss : s = s' := by
          simp only [decrefA, if_pos hsent] at hrun
          exact Option.some.inj hrun
        subst hss
        refine ⟨L, fun x hx => hx, ?_, fun x hx hnx => absurd hx hnx,
          fun j _ => rfl, fun j a _ _ => rfl, fun x _ => ⟨rfl, rfl⟩, rfl⟩
        refine ⟨hinv.nodup, hinv.lt, ?_, ?_, hinv.inj⟩
        · intro x hx
          obtain ⟨a, v, h1, h2, h3, h4, h5, h6⟩ := hinv.entry x hx
          refine ⟨a, v, h1, h2, h3, h4, ?_, h6⟩
          rw [h5]
          have hxr : ((x : Nat) : Int) ≠ ref := by
            rcases hsent with rfl | rfl
            · exact natCast_ne_tomb x
            · exact natCast_ne_null x
          simp [argList, List.count_cons, hxr]
        · intro c hc
          exact hinv.pend c (by simp [argList, hc])
      · have hpend := hinv.pend ref (by simp [argList])
        rcases hpend with h1 | h1 | h1
        · exact absurd (Or.inr h1) hsent
        · exact absurd (Or.inl h1) hsent
        obtain ⟨h0, hrL⟩ := h1
        obtain ⟨a, v, hea, hma, hvlt, hv1, hveq, hclo⟩ := hinv.entry ref.toNat hrL
        have hcast : ((ref.toNat : Nat) : Int) = ref := Int.toNat_of_nonneg h0
        have hlt' : ref < (numRefs s : Int) := by
          rw [← hcast]
          exact_mod_cast hinv.lt ref.toNat hrL
        have hderef : deref s ref = some (some a) := by
          simp only [deref, if_pos (And.intro h0 hlt')]
          exact congrArg some hea
        simp only [decrefA, if_neg hsent, hderef, hma] at hrun
        rw [wrap_dec hv1 hvlt] at hrun
        have hcnt : v.refCount
            = F.count ((ref.toNat : Nat) : Int) + inDeg s L ref.toNat + 1 := by
          rw [hveq]
          have : (argList (Sum.inl ref) ++ F).count ((ref.toNat : Nat) : Int)
              = F.count ((ref.toNat : Nat) : Int) + 1 := by
            simp [argList, List.count_cons, hcast]
          rw [this]
          omega
        have hch : childrenOf s ref.toNat = neighbors v := by
          simp [childrenOf, hea, hma]
        have haddr : ∀ x ax, tEntry s x = some ax → x ≠ ref.toNat → ax ≠ a :=
          fun x ax hx hne hcontra =>
            hne (hinv.inj x ref.toNat a (hcontra ▸ hx) hea)
        by_cases hdead : v.refCount = 1
        · -- the count reaches zero: children are decrefed, the value freed,
          -- the entry emptied
          have hF0 : F.count ((ref.toNat : Nat) : Int) = 0 := by omega
          have hdeg0 : inDeg s L ref.toNat = 0 := by omega
          rw [show v.refCount - 1 = 0 by omega] at hrun
          rw [if_pos rfl] at hrun
          have herane : ∀ y, y ∈ L.erase ref.toNat → y ≠ ref.toNat :=
            fun y hy => ((hinv.nodup.mem_erase_iff).mp hy).1
          have hchpres : ∀ x, x ≠ ref.toNat →
              childrenOf (memUpd s a { v with refCount := 0 }) x
                = childrenOf s x := by
            intro x hxne
            exact childrenOf_eq_of rfl
              (fun ax hax => mem_memUpd_ne (haddr x ax hax hxne) _)
          have hinvrec : DecInv (memUpd s a { v with refCount := 0 })
              (L.erase ref.toNat) (neighbors v ++ F) := by
            refine ⟨hinv.nodup.erase _, ?_, ?_, ?_, hinv.inj⟩
            · intro y hy
              exact hinv.lt y (List.mem_of_mem_erase hy)
            · intro x hx
              have hxL := List.mem_of_mem_erase hx
              have hxne := herane x hx
              obtain ⟨ax, vx, hx1, hx2, hx3, hx4, hx5, hx6⟩ := hinv.entry x hxL
              have haxa : ax ≠ a := haddr x ax hx1 hxne
              refine ⟨ax, vx, hx1, ?_, hx3, hx4, ?_, ?_⟩
              · rw [mem_memUpd_ne haxa]
                exact hx2
              · rw [hx5]
                have hxr : ((x : Nat) : Int) ≠ ref := by
                  rw [← hcast]
                  exact fun hh => hxne (by exact_mod_cast hh)
                have hcx : (argList (Sum.inl ref) ++ F).count ((x : Nat) : Int)
                    = F.count ((x : Nat) : Int) := by
                  simp [argList, List.count_cons, hxr]
                rw [hcx, inDeg_erase hrL x, hch, List.count_append,
                  inDeg_congr (fun y hy => hchpres y (herane y hy)) x]
                omega
              · intro c hc
                rcases hx6 c hc with hcc | hcc | ⟨hc0, hcL⟩
                · exact Or.inl hcc
                · exact Or.inr (Or.inl hcc)
                · refine Or.inr (Or.inr ⟨hc0, ?_⟩)
                  have hne : c.toNat ≠ ref.toNat := by
                    intro hh
                    have hmem0 := inDeg_zero_not_mem hdeg0 x hxL
                    apply hmem0
                    have hceq : c = ((ref.toNat : Nat) : Int) := by
                      rw [← hh]
                      exact (Int.toNat_of_nonneg hc0).symm
                    have hcx : childrenOf s x = neighbors vx := by
                      simp [childrenOf, hx1, hx2]
                    rw [← hceq, hcx]
                    exact hc
                  exact (List.mem_erase_of_ne hne).mpr hcL
            · intro c hc
              rw [List.mem_append] at hc
              rcases hc with hc | hc
              · rcases hclo c hc with hcc | hcc | ⟨hc0, hcL⟩
                · exact Or.inl hcc
                · exact Or.inr (Or.inl hcc)
                · refine Or.inr (Or.inr ⟨hc0, ?_⟩)
                  have hne : c.toNat ≠ ref.toNat := by
                    intro hh
                    have hmem0 := inDeg_zero_not_mem hdeg0 ref.toNat hrL
                    rw [hch] at hmem0
                    apply hmem0
                    have hceq : c = ((ref.toNat : Nat) : Int) := by
                      rw [← hh]
                      exact (Int.toNat_of_nonneg hc0).symm
                    rw [← hceq]
                    exact hc
                  exact (List.mem_erase_of_ne hne).mpr hcL
              · rcases hinv.pend c (by simp [argList, hc])
                  with hcc | hcc | ⟨hc0, hcL⟩
                · exact Or.inl hcc
                · exact Or.inr (Or.inl hcc)
                · refine Or.inr (Or.inr ⟨hc0, ?_⟩)
                  have hne : c.toNat ≠ ref.toNat := by
                    intro hh
                    have hceq : c = ((ref.toNat : Nat) : Int) := by
                      rw [← hh]
                      exact (Int.toNat_of_nonneg hc0).symm
                    have : ((ref.toNat : Nat) : Int) ∈ F := by
                      rw [← hceq]
                      exact hc
                    exact absurd this (List.count_eq_zero.mp hF0)
                  exact (List.mem_erase_of_ne hne).mpr hcL
          cases hrec : decrefA fuel (memUpd s a { v with refCount := 0 })
              (Sum.inr (neighbors v)) with
          | none => rw [hrec] at hrun; exact absurd hrun (by simp)
          | some s2 =>
            rw [hrec] at hrun
            dsimp only at hrun
            simp only [Option.some.injEq] at hrun
            subst hrun
            obtain ⟨L2, hsub2, hinv2, hemp2, hfr2, hmem2, hsurv2, hlen2⟩ :=
              ih _ (Sum.inr (neighbors v)) s2 (L.erase ref.toNat) F hrec hinvrec
            have hrn_lt : ref.toNat < (mm_free a s2).table.length := by
              have : (mm_free a s2).table.length = s.table.length := hlen2
              rw [this]
              exact hinv.lt ref.toNat hrL
            have hrnL2 : ref.toNat ∉ L2 :=
              fun hc => (herane _ (hsub2 _ hc)) rfl
            have htfin_ne : ∀ x, x ≠ ref.toNat →
                tEntry { mm_free a s2 with
                    table := (mm_free a s2).table.set ref.toNat none } x
                  = tEntry s2 x := by
              intro x hx
              exact getD_set_ne (fun hh => hx hh.symm) none
            have htfin_rn :
                tEntry { mm_free a s2 with
                    table := (mm_free a s2).table.set ref.toNat none } ref.toNat
                  = none :=
              getD_set_self hrn_lt none
            have htE2 : ∀ x, x ≠ ref.toNat →
                tEntry s2 x = tEntry s x ∨ tEntry s2 x = none := by
              intro x hx
              by_cases hx2 : x ∈ L2
              · exact Or.inl (hsurv2 x hx2).1
              · by_cases hxe : x ∈ L.erase ref.toNat
                · exact Or.inr (hemp2 x hxe hx2)
                · exact Or.inl (hfr2 x hxe)
            have haddr2 : ∀ x ax, x ≠ ref.toNat → tEntry s2 x = some ax →
                ax ≠ a := by
              intro x ax hx hax
              rcases htE2 x hx with he | he
              · exact haddr x ax (he ▸ hax) hx
              · rw [he] at hax
                exact Option.noConfusion hax
            refine ⟨L2, ?_, ?_, ?_, ?_, ?_, ?_, ?_⟩
            · intro x hx
              exact List.mem_of_mem_erase (hsub2 x hx)
            · -- DecInv of the final state
              have hchfin : ∀ x ∈ L2,
                  childrenOf { mm_free a s2 with
                      table := (mm_free a s2).table.set ref.toNat none } x
                    = childrenOf s2 x := by
                intro x hx
                have hxne : x ≠ ref.toNat := fun hh => hrnL2 (hh ▸ hx)
                refine childrenOf_eq_of (htfin_ne x hxne) ?_
                intro ax hax
                exact mem_mm_free_ne (haddr2 x ax hxne hax)
              refine ⟨hinv2.nodup, ?_, ?_, hinv2.pend, ?_⟩
              · intro y hy
                show y < ((mm_free a s2).table.set ref.toNat none).length
                rw [List.length_set]
                exact hinv2.lt y hy
              · intro x hx
                have hxne : x ≠ ref.toNat := fun hh => hrnL2 (hh ▸ hx)
                obtain ⟨ax, vx, hx1, hx2, hx3, hx4, hx5, hx6⟩ := hinv2.entry x hx
                refine ⟨ax, vx, (htfin_ne x hxne).trans hx1,
                  (mem_mm_free_ne (haddr2 x ax hxne hx1)).trans hx2,
                  hx3, hx4, ?_, hx6⟩
                exact hx5.trans (congrArg
                  (fun t => F.count ((x : Nat) : Int) + t)
                  (inDeg_congr hchfin x).symm)
              · intro p q b hp hq
                have hpne : p ≠ ref.toNat := by
                  intro hh
                  subst hh
                  exact Option.noConfusion (htfin_rn.symm.trans hp)
                have hqne : q ≠ ref.toNat := by
                  intro hh
                  subst hh
                  exact Option.noConfusion (htfin_rn.symm.trans hq)
                exact hinv2.inj p q b ((htfin_ne p hpne).symm.trans hp)
                  ((htfin_ne q hqne).symm.trans hq)
            · intro x hx hnx
              by_cases hxr : x = ref.toNat
              · rw [hxr]
                exact htfin_rn
              · exact (htfin_ne x hxr).trans
                  (hemp2 x ((List.mem_erase_of_ne hxr).mpr hx) hnx)
            · intro j hj
              have hjr : j ≠ ref.toNat := fun hh => hj (hh ▸ hrL)
              exact (htfin_ne j hjr).trans
                (hfr2 j (fun hc => hj (List.mem_of_mem_erase hc)))
            · intro j aj hj haj
              have hjr : j ≠ ref.toNat := fun hh => hj (hh ▸ hrL)
              have haja : aj ≠ a := haddr j aj haj hjr
              exact (mem_mm_free_ne haja).trans
                ((hmem2 j aj (fun hc => hj (List.mem_of_mem_erase hc)) haj).trans
                  (mem_memUpd_ne haja _))
            · intro x hx
              have hxne : x ≠ ref.toNat := fun hh => hrnL2 (hh ▸ hx)
              obtain ⟨ht2, hc2⟩ := hsurv2 x hx
              constructor
              · exact (htfin_ne x hxne).trans ht2
              · refine (childrenOf_eq_of (htfin_ne x hxne) ?_).trans
                  (hc2.trans (hchpres x hxne))
                intro ax hax
                exact mem_mm_free_ne (haddr2 x ax hxne hax)
            · show ((mm_free a s2).table.set ref.toNat none).length
                = s.table.length
              rw [List.length_set]
              exact hlen2
        · -- the count stays positive: only the decrement happens
          have hge2 : 2 ≤ v.refCount := by omega
          rw [if_neg (by omega : ¬ (v.refCount - 1 = 0))] at hrun
          simp only [Option.some.injEq] at hrun
          subst hrun
          have hchpres : ∀ x ∈ L,
              childrenOf (memUpd s a { v with refCount := v.refCount - 1 }) x
                = childrenOf s x := by
            intro x hx
            by_cases hxr : x = ref.toNat
            · subst hxr
              unfold childrenOf
              rw [show tEntry (memUpd s a { v with refCount := v.refCount - 1 })
                    ref.toNat = tEntry s ref.toNat from rfl, hea]
              dsimp only
              rw [mem_memUpd_self, hma]
              exact neighbors_update_rc v _
            · exact childrenOf_eq_of rfl
                (fun ax hax => mem_memUpd_ne (haddr x ax hax hxr) _)
          refine ⟨L, fun x hx => hx, ?_, fun x hx hnx => absurd hx hnx,
            fun j _ => rfl, ?_, ?_, rfl⟩
          · refine ⟨hinv.nodup, hinv.lt, ?_, ?_, hinv.inj⟩
            · intro x hx
              by_cases hxr : x = ref.toNat
              · subst hxr
                refine ⟨a, { v with refCount := v.refCount - 1 }, hea,
                  mem_memUpd_self s a _, by simp; omega, by simp; omega, ?_, ?_⟩
                · rw [show ({ v with refCount := v.refCount - 1 } : Val).refCount
                      = v.refCount - 1 from rfl,
                    inDeg_congr hchpres ref.toNat, hcnt]
                  omega
                · rw [neighbors_update_rc]
                  exact hclo
              · obtain ⟨ax, vx, hx1, hx2, hx3, hx4, hx5, hx6⟩ := hinv.entry x hx
                refine ⟨ax, vx, hx1, ?_, hx3, hx4, ?_, hx6⟩
                · rw [mem_memUpd_ne (haddr x ax hx1 hxr)]
                  exact hx2
                · rw [hx5]
                  have hxr' : ((x : Nat) : Int) ≠ ref := by
                    rw [← hcast]
                    exact fun hh => hxr (by exact_mod_cast hh)
                  have hcx : (argList (Sum.inl ref) ++ F).count ((x : Nat) : Int)
                      = F.count ((x : Nat) : Int) := by
                    simp [argList, List.count_cons, hxr']
                  rw [hcx, inDeg_congr hchpres x]
            · intro c hc
              exact hinv.pend c (by simp [argList, hc])
          · intro j aj hj haj
            exact mem_memUpd_ne (haddr j aj haj (fun hh => hj (hh ▸ hrL))) _
          · intro x hx
            exact ⟨rfl, hchpres x hx⟩

theorem inDeg_pos_exists {s : RState} {L : List Nat} {x : Nat}
    (h : 0 < inDeg s L x) :
    ∃ y ∈ L, ((x : Nat) : Int) ∈ childrenOf s y := by
  by_contra hc
  push_neg at hc
  have hz : inDeg s L x = 0 := by
    unfold inDeg
    rw [List.sum_eq_zero_iff]
    intro n hn
    rw [List.mem_map] at hn
    obtain ⟨y, hy, rfl⟩ := hn
    rw [List.count_eq_zero]
    exact hc y hy
  omega

/-! #### Sums over the table index range -/

theorem sumf_succ (n : Nat) (f : Nat → Nat) :
    sumf (n + 1) f = sumf n f + f n := by
  simp [sumf, List.range_succ]

theorem sumf_congr {n : Nat} {f g : Nat → Nat} (h : ∀ v, v < n → f v = g v) :
    sumf n f = sumf n g := by
  unfold sumf
  congr 1
  exact List.map_congr_left (fun v hv => h v (List.mem_range.mp hv))

theorem sumf_add (n : Nat) (f g : Nat → Nat) :
    sumf n (fun v => f v + g v) = sumf n f + sumf n g := by
  induction n with
  | zero => rfl
  | succ n ih =>
    rw [sumf_succ, sumf_succ, sumf_succ, ih]
    omega

theorem sumf_zero {n : Nat} {f : Nat → Nat} (h : ∀ v, v < n → f v = 0) :
    sumf n f = 0 := by
  induction n with
  | zero => rfl
  | succ n ih =>
    rw [sumf_succ, ih (fun v hv => h v (Nat.lt_succ_of_lt hv)),
      h n (Nat.lt_succ_self n)]

theorem sumf_single {n : Nat} {f : Nat → Nat} {v0 : Nat} (hv : v0 < n)
    (h0 : ∀ v, v < n → v ≠ v0 → f v = 0) : sumf n f = f v0 := by
  induction n with
  | zero => omega
  | succ n ih =>
    rw [sumf_succ]
    by_cases hn : v0 = n
    · subst hn
      rw [sumf_zero (fun v hv' => h0 v (Nat.lt_succ_of_lt hv') (Nat.ne_of_lt hv'))]
      omega
    · rw [ih (by omega) (fun v hv' hne => h0 v (Nat.lt_succ_of_lt hv') hne),
        h0 n (Nat.lt_succ_self n) (fun hh => hn hh.symm)]
      omega

/-! #### The stop-and-copy evacuation -/

theorem inNew_congr {s s' : RState} {r : Nat}
    (ht : tEntry s' r = tEntry s r)
    (hb : s'.allocBase = s.allocBase) (hp : s'.poolSize = s.poolSize) :
    inNew s' r = inNew s r := by
  unfold inNew
  rw [ht]
  cases tEntry s r with
  | none => rfl
  | some a => simp [is_pool_address, hb, hp]

theorem payloadAt_eq_of {s s' : RState} {x : Nat}
    (ht : tEntry s' x = tEntry s x)
    (hm : ∀ a, tEntry s x = some a → s'.mem a = s.mem a) :
    payloadAt s' x = payloadAt s x := by
  unfold payloadAt
  rw [ht]
  cases he : tEntry s x with
  | none => rfl
  | some a =>
    dsimp only
    rw [hm a he]

theorem rcAt_eq_of {s s' : RState} {x : Nat}
    (ht : tEntry s' x = tEntry s x)
    (hm : ∀ a, tEntry s x = some a → s'.mem a = s.mem a) :
    rcAt s' x = rcAt s x := by
  unfold rcAt
  rw [ht]
  cases he : tEntry s x with
  | none => rfl
  | some a =>
    dsimp only
    rw [hm a he]

theorem is_pool_address_iff {s : RState} {p : Nat} :
    is_pool_address s p = true ↔
      s.allocBase ≤ p ∧ p < s.allocBase + s.poolSize := by
  simp [is_pool_address]

theorem edgesNew_zero_of_flags {s s' : RState}
    (h : ∀ v, inNew s' v = inNew s v) (x : Nat) : edgesNew s s' x = 0 := by
  apply sumf_zero
  intro v _
  cases hb : inNew s v <;> simp [h v, hb]

theorem edgesNew_split {s s1 s2 : RState}
    (hn : numRefs s1 = numRefs s)
    (hch : ∀ v, childrenOf s1 v = childrenOf s v)
    (h01 : ∀ v, inNew s v = true → inNew s1 v = true)
    (h12 : ∀ v, inNew s1 v = true → inNew s2 v = true) (x : Nat) :
    edgesNew s s2 x = edgesNew s s1 x + edgesNew s1 s2 x := by
  unfold edgesNew
  rw [hn, ← sumf_add]
  apply sumf_congr
  intro v _
  rw [hch v]
  cases hb0 : inNew s v with
  | true => simp [hb0, h01 v hb0, h12 v (h01 v hb0)]
  | false =>
    cases hb1 : inNew s1 v with
    | true => simp [hb0, hb1, h12 v hb1]
    | false =>
      cases hb2 : inNew s2 v <;> simp [hb0, hb1, hb2]

theorem edgesNew_single {s s' : RState} {e0 : Nat} (he : e0 < numRefs s)
    (hflag : ∀ v, v < numRefs s →
      ((inNew s' v = true ∧ inNew s v = false) ↔ v = e0)) (x : Nat) :
    edgesNew s s' x = (childrenOf s e0).count ((x : Nat) : Int) := by
  unfold edgesNew
  rw [sumf_single he (fun v hv hne => by
    rw [if_neg (fun hc => hne ((hflag v hv).mp hc))])]
  rw [if_pos ((hflag e0 he).mpr rfl)]

theorem rcGet_lt {s : RState} {r : Nat} (hinv : CInv s)
    (h : inNew s r = true) : rcGet s r < RCMOD := by
  unfold inNew at h
  cases he : tEntry s r with
  | none => rw [he] at h; exact Bool.noConfusion h
  | some a =>
    obtain ⟨v, hv, hlt, _⟩ := hinv.backed r a he
    simp [rcGet, rcAt, he, hv]
    exact hlt

theorem inNew_some {s : RState} {r : Nat} (h : inNew s r = true) :
    ∃ a, tEntry s r = some a ∧ is_pool_address s a = true := by
  unfold inNew at h
  cases he : tEntry s r with
  | none => rw [he] at h; exact Bool.noConfusion h
  | some a =>
    rw [he] at h
    exact ⟨a, rfl, h⟩

/-- A `move` task that does nothing (a sentinel handle or an empty child
list) satisfies the task contract with the state unchanged. -/
theorem MoveOut.idCase {s : RState} {arg : Sum Int (List Int)}
    (hinv : CInv s) (hargs : ∀ e ∈ argList arg, ¬ (0 ≤ e)) :
    MoveOut s arg s := by
  have harr : ∀ r : Nat, arrCount arg r = 0 := by
    intro r
    cases arg with
    | inl e =>
      show (if e = ((r : Nat) : Int) then 1 else 0) = 0
      rw [if_neg]
      intro hh
      exact hargs e (by simp [argList]) (hh ▸ Int.natCast_nonneg r)
    | inr l =>
      show List.count ((r : Nat) : Int) l = 0
      rw [List.count_eq_zero]
      intro hmem
      exact hargs _ hmem (Int.natCast_nonneg r)
  refine ⟨hinv, fun r => rfl, fun r => rfl, rfl, rfl, ⟨rfl, rfl, rfl⟩, rfl,
    fun r _ => rfl, fun r h => h, fun r _ => ⟨rfl, rfl⟩,
    fun r h => Or.inl h, ?_, ?_, ?_⟩
  · intro v hv hnv
    rw [hv] at hnv
    exact absurd hnv (by simp)
  · intro e he h0
    exact absurd h0 (hargs e he)
  · intro r hr
    rw [harr r, edgesNew_zero_of_flags (fun v => rfl) r, if_pos hr]
    have := rcGet_lt hinv hr
    simp [Nat.mod_eq_of_lt this]

/-- Composing the task contract for `move(r)` with the contract for the
remaining pending handles `rs` yields the contract for `r :: rs`. -/
theorem MoveOut.compose {s s1 s' : RState} {r : Int} {rs : List Int}
    (M1 : MoveOut s (Sum.inl r) s1) (M2 : MoveOut s1 (Sum.inr rs) s') :
    MoveOut s (Sum.inr (r :: rs)) s' := by
  have hg : (fun v => childrenOf s1 v) = (fun v => childrenOf s v) :=
    funext M1.child
  have hsplit : ∀ x, edgesNew s s' x = edgesNew s s1 x + edgesNew s1 s' x :=
    edgesNew_split (by unfold numRefs; rw [M1.tlen]) M1.child M1.mono M2.mono
  refine ⟨M2.inv, fun x => (M2.payload x).trans (M1.payload x),
    fun x => (M2.child x).trans (M1.child x),
    M2.base.trans M1.base, M2.psize.trans M1.psize,
    ⟨M2.pools.1.trans M1.pools.1, M2.pools.2.1.trans M1.pools.2.1,
      M2.pools.2.2.trans M1.pools.2.2⟩,
    M2.tlen.trans M1.tlen,
    fun x hx => (M2.stable x (M1.mono x hx)).trans (M1.stable x hx),
    fun x hx => M2.mono x (M1.mono x hx), ?_, ?_, ?_, ?_, ?_⟩
  · intro x hx
    have hx1 : inNew s1 x = false := by
      cases hb : inNew s1 x with
      | false => rfl
      | true => rw [M2.mono x hb] at hx; exact Bool.noConfusion hx
    obtain ⟨he2, hr2⟩ := M2.frame x hx
    obtain ⟨he1, hr1⟩ := M1.frame x hx1
    exact ⟨he2.trans he1, hr2.trans hr1⟩
  · intro x hx
    rcases M2.reach x hx with h1 | h1
    · rcases M1.reach x h1 with h2 | h2
      · exact Or.inl h2
      · obtain ⟨h0r, hre⟩ := h2
        exact Or.inr ⟨r, List.mem_cons_self r rs, h0r, hre⟩
    · rw [hg] at h1
      obtain ⟨c, hc, h0c, hre⟩ := h1
      exact Or.inr ⟨c, List.mem_cons_of_mem r hc, h0c, hre⟩
  · intro v hv hnv c hc h0c
    cases hb : inNew s1 v with
    | true =>
      exact M2.mono _ (M1.closed v hb hnv c hc h0c)
    | false =>
      have hc1 : c ∈ childrenOf s1 v := by rw [M1.child v]; exact hc
      exact M2.closed v hv hb c hc1 h0c
  · intro e he h0
    rcases List.mem_cons.mp he with rfl | he'
    · exact M2.mono _ (M1.evac e (by simp [argList]) h0)
    · exact M2.evac e he' h0
  · intro x hx
    have hcM2 := M2.count x hx
    have harr : arrCount (Sum.inr (r :: rs)) x
        = arrCount (Sum.inl r) x + arrCount (Sum.inr rs) x := by
      simp only [arrCount, List.count_cons, beq_iff_eq]
      exact Nat.add_comm _ _
    by_cases hx1 : inNew s1 x = true
    · have hcM1 := M1.count x hx1
      rw [hcM2, if_pos hx1, hcM1, Nat.add_assoc (_ % RCMOD), Nat.mod_add_mod,
        ← Nat.add_assoc, hsplit x, harr]
      congr 1
      ring
    · have hx0 : inNew s x = false := by
        cases hb : inNew s x with
        | false => rfl
        | true => exact absurd (M1.mono x hb) hx1
      have harr1 : arrCount (Sum.inl r) x = 0 := by
        show (if r = ((x : Nat) : Int) then 1 else 0) = 0
        rw [if_neg]
        intro hh
        have := M1.evac r (by simp [argList]) (hh ▸ Int.natCast_nonneg x)
        rw [hh] at this
        rw [Int.toNat_natCast] at this
        exact hx1 this
      have hE01 : edgesNew s s1 x = 0 := by
        apply sumf_zero
        intro v hv
        by_cases hfv : inNew s1 v = true ∧ inNew s v = false
        · rw [if_pos hfv, List.count_eq_zero]
          intro hmem
          have := M1.closed v hfv.1 hfv.2 _ hmem (Int.natCast_nonneg x)
          rw [Int.toNat_natCast] at this
          exact hx1 this
        · rw [if_neg hfv]
      rw [hcM2, if_neg hx1, if_neg (by rw [hx0]; exact Bool.noConfusion),
        hsplit x, harr, harr1, hE01]
      congr 1
      ring

/-- The already-evacuated branch of `move`: the target's count absorbs one
more arrival and nothing else changes. -/
theorem MoveOut.incCase {s : RState} {ref : Int} {a : Nat} {v : Val}
    (hinv : CInv s) (h0 : 0 ≤ ref)
    (hea : tEntry s ref.toNat = some a) (hme : s.mem a = some v)
    (hpool : is_pool_address s a = true) :
    MoveOut s (Sum.inl ref)
      (memUpd s a { v with refCount := (v.refCount + 1) % RCMOD }) := by
  have hcast : ((ref.toNat : Nat) : Int) = ref := Int.toNat_of_nonneg h0
  have haddr : ∀ x ax, tEntry s x = some ax → x ≠ ref.toNat → ax ≠ a :=
    fun x ax hx hne hc => hne (hinv.inj x ref.toNat a (hc ▸ hx) hea)
  have hmemne : ∀ ax, ax ≠ a →
      (memUpd s a { v with refCount := (v.refCount + 1) % RCMOD }).mem ax
        = s.mem ax :=
    fun ax hne => mem_memUpd_ne hne _
  have hflags : ∀ x,
      inNew (memUpd s a { v with refCount := (v.refCount + 1) % RCMOD }) x
        = inNew s x :=
    fun x => inNew_congr rfl rfl rfl
  have hrn_new : inNew s ref.toNat = true := by
    unfold inNew
    rw [hea]
    exact hpool
  have hMpos : 0 < RCMOD := by decide
  have hvsz : 1 ≤ v.vsize := by
    obtain ⟨v0, hv0, _, hsz⟩ := hinv.backed ref.toNat a hea
    rw [hme] at hv0
    rw [Option.some.inj hv0]
    exact hsz
  have hrc_rn :
      rcGet (memUpd s a { v with refCount := (v.refCount + 1) % RCMOD })
        ref.toNat = (v.refCount + 1) % RCMOD := by
    unfold rcGet rcAt
    rw [show tEntry (memUpd s a { v with refCount := (v.refCount + 1) % RCMOD })
        ref.toNat = some a from hea]
    dsimp only
    rw [mem_memUpd_self]
    rfl
  have hrc_s_rn : rcGet s ref.toNat = v.refCount := by
    unfold rcGet rcAt
    rw [hea]
    dsimp only
    rw [hme]
    rfl
  refine ⟨?_, ?_, ?_, rfl, rfl, ⟨rfl, rfl, rfl⟩, rfl, fun x _ => rfl, ?_,
    ?_, ?_, ?_, ?_, ?_⟩
  · refine ⟨hinv.bound, hinv.entries, ?_, hinv.inj⟩
    intro x ax hax
    by_cases hxa : ax = a
    · subst hxa
      refine ⟨{ v with refCount := (v.refCount + 1) % RCMOD },
        mem_memUpd_self s ax _, ?_, ?_⟩
      · exact Nat.mod_lt _ hMpos
      · exact hvsz
    · obtain ⟨v0, hv0, hlt0, hsz0⟩ := hinv.backed x ax hax
      exact ⟨v0, (hmemne ax hxa).trans hv0, hlt0, hsz0⟩
  · intro x
    by_cases hxr : x = ref.toNat
    · subst hxr
      unfold payloadAt
      rw [show tEntry (memUpd s a { v with refCount := (v.refCount + 1) % RCMOD })
          ref.toNat = some a from hea, hea]
      dsimp only
      rw [mem_memUpd_self, hme]
      rfl
    · exact payloadAt_eq_of rfl (fun ax hax => hmemne ax (haddr x ax hax hxr))
  · intro x
    by_cases hxr : x = ref.toNat
    · subst hxr
      unfold childrenOf
      rw [show tEntry (memUpd s a { v with refCount := (v.refCount + 1) % RCMOD })
          ref.toNat = some a from hea, hea]
      dsimp only
      rw [mem_memUpd_self, hme]
      rfl
    · exact childrenOf_eq_of rfl (fun ax hax => hmemne ax (haddr x ax hax hxr))
  · intro x hx
    rw [hflags x]
    exact hx
  · intro x hx
    refine ⟨rfl, ?_⟩
    have hxr : x ≠ ref.toNat := by
      intro hh
      rw [hh, hflags ref.toNat, hrn_new] at hx
      exact Bool.noConfusion hx
    exact rcAt_eq_of
      (show tEntry (memUpd s a { v with refCount := (v.refCount + 1) % RCMOD })
        x = tEntry s x from rfl)
      (fun ax hax => hmemne ax (haddr x ax hax hxr))
  · intro x hx
    rw [hflags x] at hx
    exact Or.inl hx
  · intro v0 hv0 hnv0
    rw [hflags v0, hnv0] at hv0
    exact Bool.noConfusion hv0
  · intro e he h0e
    rcases List.mem_singleton.mp he with rfl
    rw [hflags]
    exact hrn_new
  · intro x hx
    rw [edgesNew_zero_of_flags hflags x]
    by_cases hxr : x = ref.toNat
    · subst hxr
      rw [hrc_rn, if_pos hrn_new, hrc_s_rn,
        show arrCount (Sum.inl ref) ref.toNat = 1 by
          show (if ref = ((ref.toNat : Nat) : Int) then 1 else 0) = 1
          rw [if_pos hcast.symm]]
    · have hxnew : inNew s x = true := by
        rw [← hflags x]
        exact hx
      have hrceq :
          rcGet (memUpd s a { v with refCount := (v.refCount + 1) % RCMOD }) x
            = rcGet s x := by
        unfold rcGet
        rw [rcAt_eq_of
          (show tEntry (memUpd s a
              { v with refCount := (v.refCount + 1) % RCMOD }) x
            = tEntry s x from rfl)
          (fun ax hax => hmemne ax (haddr x ax hax hxr))]
      rw [hrceq, if_pos hxnew,
        show arrCount (Sum.inl ref) x = 0 by
          show (if ref = ((x : Nat) : Int) then 1 else 0) = 0
          rw [if_neg]
          intro hc
          apply hxr
          rw [hc, Int.toNat_natCast]]
      have hlt := rcGet_lt hinv hxnew
      simp [Nat.mod_eq_of_lt hlt]

/-- After the evacuation steps of `move` (count reset, allocation, copy,
table update) the collection invariant still holds.  The state `s4` is
characterized pointwise; `p` is the address the copy was allocated at. -/
theorem evac_CInv {s s4 : RState} {ref : Int} {a p : Nat} {v : Val}
    (hinv : CInv s)
    (hea : tEntry s ref.toNat = some a) (hme : s.mem a = some v)
    (hpool : ¬ is_pool_address s a = true)
    (hfit : s.bump + v.vsize ≤ s.poolSize)
    (hvsz : 1 ≤ v.vsize)
    (hp : p = s.allocBase + s.bump)
    (hmem4 : ∀ x, s4.mem x = if x = p then some { v with refCount := 1 }
      else if x = a then some { v with refCount := 1 } else s.mem x)
    (htab4 : s4.table = s.table.set ref.toNat (some p))
    (hbump4 : s4.bump = s.bump + v.vsize)
    (hbase4 : s4.allocBase = s.allocBase)
    (hps4 : s4.poolSize = s.poolSize) :
    CInv s4 := by
  have hrn_lt : ref.toNat < numRefs s := tEntry_some_lt hea
  have ha_out : ¬ (s.allocBase ≤ a ∧ a < s.allocBase + s.poolSize) :=
    fun hc => hpool (is_pool_address_iff.mpr hc)
  have hentry_ne_p : ∀ x ax, tEntry s x = some ax → ax ≠ p := by
    intro x ax hax
    rcases hinv.entries x ax hax with h1 | h1 | h1 <;> omega
  have haddr : ∀ x ax, tEntry s x = some ax → x ≠ ref.toNat → ax ≠ a :=
    fun x ax hx hne hc => hne (hinv.inj x ref.toNat a (hc ▸ hx) hea)
  have htE4 : ∀ x, x ≠ ref.toNat → tEntry s4 x = tEntry s x := by
    intro x hx
    unfold tEntry
    rw [htab4]
    exact getD_set_ne (fun hh => hx hh.symm) _
  have htE4rn : tEntry s4 ref.toNat = some p := by
    unfold tEntry
    rw [htab4]
    exact getD_set_self hrn_lt _
  refine ⟨?_, ?_, ?_, ?_⟩
  · rw [hbump4, hps4]
    exact hfit
  · intro x ax hax
    by_cases hxr : x = ref.toNat
    · subst hxr
      rw [htE4rn] at hax
      obtain rfl := Option.some.inj hax
      left
      rw [hbase4, hbump4]
      omega
    · rw [htE4 x hxr] at hax
      rcases hinv.entries x ax hax with h1 | h1 | h1
      · left
        rw [hbase4, hbump4]
        omega
      · right; left
        rw [hbase4]
        exact h1
      · right; right
        rw [hbase4, hps4]
        exact h1
  · intro x ax hax
    by_cases hxr : x = ref.toNat
    · subst hxr
      rw [htE4rn] at hax
      obtain rfl := Option.some.inj hax
      refine ⟨{ v with refCount := 1 }, ?_, ?_, hvsz⟩
      · rw [hmem4 p, if_pos rfl]
      · show (1 : Nat) < RCMOD
        decide
    · rw [htE4 x hxr] at hax
      obtain ⟨v0, hv0, hlt0, hsz0⟩ := hinv.backed x ax hax
      refine ⟨v0, ?_, hlt0, hsz0⟩
      rw [hmem4 ax, if_neg (hentry_ne_p x ax hax),
        if_neg (haddr x ax hax hxr)]
      exact hv0
  · intro x y b hx hy
    by_cases hxr : x = ref.toNat <;> by_cases hyr : y = ref.toNat
    · rw [hxr, hyr]
    · subst hxr
      rw [htE4rn] at hx
      obtain rfl := Option.some.inj hx
      rw [htE4 y hyr] at hy
      exact absurd rfl (hentry_ne_p y p hy)
    · subst hyr
      rw [htE4rn] at hy
      obtain rfl := Option.some.inj hy
      rw [htE4 x hxr] at hx
      exact absurd rfl (hentry_ne_p x p hx)
    · rw [htE4 x hxr] at hx
      rw [htE4 y hyr] at hy
      exact hinv.inj x y b hx hy

/-- The evacuation branch of `move`: composing the characterized copy step
with the completed recursive traversal of the children gives the full task
contract for `move(ref)`. -/
theorem MoveOut.evacCase {s s4 s' : RState} {ref : Int} {a p : Nat} {v : Val}
    (hinv : CInv s) (h0 : 0 ≤ ref)
    (hea : tEntry s ref.toNat = some a) (hme : s.mem a = some v)
    (hpool : ¬ is_pool_address s a = true)
    (hfit : s.bump + v.vsize ≤ s.poolSize)
    (hvsz : 1 ≤ v.vsize)
    (hp : p = s.allocBase + s.bump)
    (hmem4 : ∀ x, s4.mem x = if x = p then some { v with refCount := 1 }
      else if x = a then some { v with refCount := 1 } else s.mem x)
    (htab4 : s4.table = s.table.set ref.toNat (some p))
    (hbump4 : s4.bump = s.bump + v.vsize)
    (hbase4 : s4.allocBase = s.allocBase)
    (hps4 : s4.poolSize = s.poolSize)
    (hpools4 : s4.pool = s.pool ∧ s4.to_pool = s.to_pool ∧
      s4.halfSize = s.halfSize)
    (M4 : MoveOut s4 (Sum.inr (neighbors v)) s') :
    MoveOut s (Sum.inl ref) s' := by
  have hcast : ((ref.toNat : Nat) : Int) = ref := Int.toNat_of_nonneg h0
  have hrn_lt : ref.toNat < numRefs s := tEntry_some_lt hea
  have ha_out : ¬ (s.allocBase ≤ a ∧ a < s.allocBase + s.poolSize) :=
    fun hc => hpool (is_pool_address_iff.mpr hc)
  have hp_in : s.allocBase ≤ p ∧ p < s.allocBase + s.poolSize := by omega
  have hentry_ne_p : ∀ x ax, tEntry s x = some ax → ax ≠ p := by
    intro x ax hax
    rcases hinv.entries x ax hax with h1 | h1 | h1 <;> omega
  have haddr : ∀ x ax, tEntry s x = some ax → x ≠ ref.toNat → ax ≠ a :=
    fun x ax hx hne hc => hne (hinv.inj x ref.toNat a (hc ▸ hx) hea)
  have htE4 : ∀ x, x ≠ ref.toNat → tEntry s4 x = tEntry s x := by
    intro x hx
    unfold tEntry
    rw [htab4]
    exact getD_set_ne (fun hh => hx hh.symm) _
  have htE4rn : tEntry s4 ref.toNat = some p := by
    unfold tEntry
    rw [htab4]
    exact getD_set_self hrn_lt _
  have hmem4other : ∀ x, x ≠ p → x ≠ a → s4.mem x = s.mem x := by
    intro x h1 h2
    rw [hmem4 x, if_neg h1, if_neg h2]
  have hflag4 : ∀ x, x ≠ ref.toNat → inNew s4 x = inNew s x :=
    fun x hx => inNew_congr (htE4 x hx) hbase4 hps4
  have hflag4rn : inNew s4 ref.toNat = true := by
    unfold inNew
    rw [htE4rn]
    exact is_pool_address_iff.mpr (by rw [hbase4, hps4]; exact hp_in)
  have hrn_not_new : inNew s ref.toNat = false := by
    unfold inNew
    rw [hea]
    dsimp only
    cases hb : is_pool_address s a with
    | false => rfl
    | true => exact absurd hb hpool
  have hpay4 : ∀ x, payloadAt s4 x = payloadAt s x := by
    intro x
    by_cases hxr : x = ref.toNat
    · subst hxr
      unfold payloadAt
      rw [htE4rn, hea]
      dsimp only
      rw [hmem4 p, if_pos rfl, hme]
      rfl
    · exact payloadAt_eq_of (htE4 x hxr) (fun ax hax =>
        hmem4other ax (hentry_ne_p x ax hax) (haddr x ax hax hxr))
  have hch4 : ∀ x, childrenOf s4 x = childrenOf s x := by
    intro x
    by_cases hxr : x = ref.toNat
    · subst hxr
      unfold childrenOf
      rw [htE4rn, hea]
      dsimp only
      rw [hmem4 p, if_pos rfl, hme]
      rfl
    · exact childrenOf_eq_of (htE4 x hxr) (fun ax hax =>
        hmem4other ax (hentry_ne_p x ax hax) (haddr x ax hax hxr))
  have hrc4 : ∀ x, x ≠ ref.toNat → rcAt s4 x = rcAt s x :=
    fun x hxr => rcAt_eq_of (htE4 x hxr) (fun ax hax =>
      hmem4other ax (hentry_ne_p x ax hax) (haddr x ax hax hxr))
  have hrc4rn : rcGet s4 ref.toNat = 1 := by
    unfold rcGet rcAt
    rw [htE4rn]
    dsimp only
    rw [hmem4 p, if_pos rfl]
    rfl
  have hlen4 : s4.table.length = s.table.length := by
    rw [htab4]
    exact List.length_set s.table ref.toNat _
  have hmono04 : ∀ y, inNew s y = true → inNew s4 y = true := by
    intro y hy
    by_cases hyr : y = ref.toNat
    · rw [hyr]
      exact hflag4rn
    · rw [hflag4 y hyr]
      exact hy
  have hchrn : childrenOf s ref.toNat = neighbors v := by
    simp [childrenOf, hea, hme]
  refine ⟨M4.inv, fun x => (M4.payload x).trans (hpay4 x),
    fun x => (M4.child x).trans (hch4 x),
    M4.base.trans hbase4, M4.psize.trans hps4,
    ⟨M4.pools.1.trans hpools4.1, M4.pools.2.1.trans hpools4.2.1,
      M4.pools.2.2.trans hpools4.2.2⟩,
    M4.tlen.trans hlen4, ?_, ?_, ?_, ?_, ?_, ?_, ?_⟩
  · intro x hx
    have hxr : x ≠ ref.toNat := by
      intro hh
      rw [hh, hrn_not_new] at hx
      exact Bool.noConfusion hx
    exact (M4.stable x (hmono04 x hx)).trans (htE4 x hxr)
  · intro x hx
    exact M4.mono x (hmono04 x hx)
  · intro x hx
    have hx4 : inNew s4 x = false := by
      cases hb : inNew s4 x with
      | false => rfl
      | true => rw [M4.mono x hb] at hx; exact Bool.noConfusion hx
    have hxr : x ≠ ref.toNat := by
      intro hh
      rw [hh, hflag4rn] at hx4
      exact Bool.noConfusion hx4
    obtain ⟨he4, hr4⟩ := M4.frame x hx
    exact ⟨he4.trans (htE4 x hxr), hr4.trans (hrc4 x hxr)⟩
  · intro x hx
    rcases M4.reach x hx with h1 | h1
    · by_cases hxr : x = ref.toNat
      · subst hxr
        exact Or.inr ⟨h0, Reach.refl _⟩
      · rw [hflag4 x hxr] at h1
        exact Or.inl h1
    · have hg : (fun y => childrenOf s4 y) = (fun y => childrenOf s y) :=
        funext hch4
      rw [hg] at h1
      obtain ⟨c, hc, hc0, hre⟩ := h1
      refine Or.inr ⟨h0, Reach.step c ?_ hc0 hre⟩
      show c ∈ childrenOf s ref.toNat
      rw [hchrn]
      exact hc
  · intro v0 hv0 hnv0 c hc hc0
    by_cases hvr : v0 = ref.toNat
    · subst hvr
      apply M4.evac c _ hc0
      show c ∈ neighbors v
      rw [← hchrn]
      exact hc
    · have hnv4 : inNew s4 v0 = false := by
        rw [hflag4 v0 hvr]
        exact hnv0
      have hc4 : c ∈ childrenOf s4 v0 := by
        rw [hch4 v0]
        exact hc
      exact M4.closed v0 hv0 hnv4 c hc4 hc0
  · intro e he h0e
    rcases List.mem_singleton.mp he with rfl
    exact M4.mono _ hflag4rn
  · intro x hx
    have hcM4 := M4.count x hx
    have hsplit : edgesNew s s' x = edgesNew s s4 x + edgesNew s4 s' x :=
      edgesNew_split (by unfold numRefs; rw [hlen4]) hch4 hmono04 M4.mono x
    have hsingle : edgesNew s s4 x
        = (childrenOf s ref.toNat).count ((x : Nat) : Int) := by
      apply edgesNew_single hrn_lt
      intro y hy
      constructor
      · rintro ⟨hy1, hy2⟩
        by_contra hne
        rw [hflag4 y hne, hy2] at hy1
        exact Bool.noConfusion hy1
      · rintro rfl
        exact ⟨hflag4rn, hrn_not_new⟩
    have harrM4 : arrCount (Sum.inr (neighbors v)) x
        = (childrenOf s ref.toNat).count ((x : Nat) : Int) := by
      rw [hchrn]
      rfl
    by_cases hxr : x = ref.toNat
    · subst hxr
      rw [hcM4, if_pos hflag4rn, hrc4rn, harrM4, hsplit, hsingle,
        if_neg (by rw [hrn_not_new]; exact Bool.noConfusion),
        show arrCount (Sum.inl ref) ref.toNat = 1 by
          show (if ref = ((ref.toNat : Nat) : Int) then 1 else 0) = 1
          rw [if_pos hcast.symm]]
      congr 1
      ring
    · have hrceq : rcGet s4 x = rcGet s x := by
        unfold rcGet
        rw [hrc4 x hxr]
      rw [hcM4, hflag4 x hxr, hrceq, harrM4, hsplit, hsingle,
        show arrCount (Sum.inl ref) x = 0 by
          show (if ref = ((x : Nat) : Int) then 1 else 0) = 0
          rw [if_neg]
          intro hc
          apply hxr
          rw [hc, Int.toNat_natCast]]
      congr 1
      ring

/-- Inversion of a successful `mm_malloc`: the returned slot is the bump
pointer, which advances; a fresh `FREE` header of the requested size is
installed; nothing else changes. -/
theorem mm_malloc_spec {sz : Nat} {s0 : RState} {p : Nat} {s2 : RState}
    (h : mm_malloc sz s0 = some (p, s2)) :
    p = s0.allocBase + s0.bump ∧ s0.bump + sz ≤ s0.poolSize ∧
    (∀ x, s2.mem x = if x = p then some ⟨VType.free, sz, 0, [], 0⟩
      else s0.mem x) ∧
    s2.bump = s0.bump + sz ∧ s2.allocBase = s0.allocBase ∧
    s2.poolSize = s0.poolSize ∧ s2.pool = s0.pool ∧ s2.to_pool = s0.to_pool ∧
    s2.halfSize = s0.halfSize ∧ s2.table = s0.table := by
  unfold mm_malloc at h
  by_cases hc : s0.bump + sz ≤ s0.poolSize
  · rw [if_pos hc] at h
    simp only [Option.some.injEq, Prod.mk.injEq] at h
    obtain ⟨hp, hs⟩ := h
    subst hp
    subst hs
    refine ⟨rfl, hc, ?_, rfl, rfl, rfl, rfl, rfl, rfl, rfl⟩
    intro x
    rfl
  · rw [if_neg hc] at h
    exact Option.noConfusion h

/-- Every completed `move` task satisfies the task contract `MoveOut`. -/
theorem moveA_spec : ∀ (fuel : Nat) (s : RState) (arg : Sum Int (List Int))
    (s' : RState), moveA fuel s arg = some s' → CInv s → MoveOut s arg s' := by
  intro fuel
  induction fuel with
  | zero =>
    intro s arg s' hrun
    exact absurd hrun (by simp [moveA])
  | succ fuel ih =>
    intro s arg s' hrun hinv
    cases arg with
    | inr P =>
      cases P with
      | nil =>
        have hss : s = s' := by simpa [moveA] using hrun
        subst hss
        exact MoveOut.idCase hinv (fun e he => absurd he (List.not_mem_nil e))
      | cons r rs =>
        simp only [moveA] at hrun
        cases hr1 : moveA fuel s (Sum.inl r) with
        | none => rw [hr1] at hrun; exact absurd hrun (by simp)
        | some s1 =>
          rw [hr1] at hrun
          dsimp only at hrun
          have M1 := ih s (Sum.inl r) s1 hr1 hinv
          have M2 := ih s1 (Sum.inr rs) s' hrun M1.inv
          exact M1.compose M2
    | inl ref =>
      by_cases hsent : ref = NULL_REF ∨ ref = TOMBSTONE_REF
      · have hss : s = s' := by
          simp only [moveA, if_pos hsent] at hrun
          exact Option.some.inj hrun
        subst hss
        refine MoveOut.idCase hinv ?_
        intro e he
        rcases List.mem_singleton.mp he with rfl
        rcases hsent with rfl | rfl <;> decide
      · cases hde : deref s ref with
        | none =>
          simp only [moveA, if_neg hsent, hde] at hrun
          exact absurd hrun (by simp)
        | some popt =>
          cases popt with
          | none =>
            simp only [moveA, if_neg hsent, hde] at hrun
            exact absurd hrun (by simp)
          | some a =>
            have hda : 0 ≤ ref ∧ ref < (numRefs s : Int) := by
              by_contra hc
              rw [deref, if_neg hc] at hde
              exact Option.noConfusion hde
            have hea : tEntry s ref.toNat = some a := by
              rw [deref, if_pos hda] at hde
              exact Option.some.inj hde
            cases hme : s.mem a with
            | none =>
              simp only [moveA, if_neg hsent, hde, hme] at hrun
              exact absurd hrun (by simp)
            | some v =>
              obtain ⟨v0, hv0, hvlt, hvsz0⟩ := hinv.backed ref.toNat a hea
              rw [hme] at hv0
              obtain rfl := Option.some.inj hv0
              by_cases hpool : is_pool_address s a = true
              · simp only [moveA, if_neg hsent, hde, hme, if_pos hpool] at hrun
                obtain rfl := Option.some.inj hrun
                exact MoveOut.incCase hinv hda.1 hea hme hpool
              · simp only [moveA, if_neg hsent, hde, hme] at hrun
                rw [if_neg hpool] at hrun
                cases hmm : mm_malloc v.vsize
                    (memUpd s a { v with refCount := 1 }) with
                | none =>
                  rw [hmm] at hrun
                  exact absurd hrun (by simp)
                | some pr =>
                  obtain ⟨p, s2⟩ := pr
                  rw [hmm] at hrun
                  dsimp only at hrun
                  obtain ⟨hpeq, hfit, hm2, hb2, hba2, hps2, hpo2, hto2, hh2,
                    ht2⟩ := mm_malloc_spec hmm
                  have hp' : p = s.allocBase + s.bump := hpeq
                  have hfit' : s.bump + v.vsize ≤ s.poolSize := hfit
                  have hmem4 : ∀ x,
                      ({ memUpd s2 p { v with refCount := 1 } with
                        table := (memUpd s2 p { v with refCount := 1 }).table.set
                          ref.toNat (some p) } : RState).mem x
                      = if x = p then some { v with refCount := 1 }
                        else if x = a then some { v with refCount := 1 }
                        else s.mem x := by
                    intro x
                    show (if x = p then some { v with refCount := 1 }
                      else s2.mem x) = _
                    by_cases hx1 : x = p
                    · rw [if_pos hx1, if_pos hx1]
                    · rw [if_neg hx1, if_neg hx1, hm2 x, if_neg hx1]
                      rfl
                  have htab4 :
                      ({ memUpd s2 p { v with refCount := 1 } with
                        table := (memUpd s2 p { v with refCount := 1 }).table.set
                          ref.toNat (some p) } : RState).table
                      = s.table.set ref.toNat (some p) := by
                    show s2.table.set ref.toNat (some p)
                      = s.table.set ref.toNat (some p)
                    rw [show s2.table = s.table from ht2]
                  have hC4 : CInv { memUpd s2 p { v with refCount := 1 } with
                      table := (memUpd s2 p { v with refCount := 1 }).table.set
                        ref.toNat (some p) } :=
                    evac_CInv hinv hea hme hpool hfit' hvsz0 hp' hmem4 htab4
                      (show s2.bump = s.bump + v.vsize from hb2)
                      (show s2.allocBase = s.allocBase from hba2)
                      (show s2.poolSize = s.poolSize from hps2)
                  have M4 := ih _ (Sum.inr (neighbors { v with refCount := 1 }))
                    s' hrun hC4
                  exact MoveOut.evacCase hinv hda.1 hea hme hpool hfit' hvsz0
                    hp' hmem4 htab4
                    (show s2.bump = s.bump + v.vsize from hb2)
                    (show s2.allocBase = s.allocBase from hba2)
                    (show s2.poolSize = s.poolSize from hps2)
                    ⟨show s2.pool = s.pool from hpo2,
                      show s2.to_pool = s.to_pool from hto2,
                      show s2.halfSize = s.halfSize from hh2⟩
                    M4

/-! #### The collection pipeline: flip, evacuate, sweep, swap -/

theorem preWF_halves {s : RState} (hwf : preWF s = true) :
    ((s.pool = 0 ∧ s.to_pool = s.halfSize) ∨
      (s.pool = s.halfSize ∧ s.to_pool = 0)) ∧ s.poolSize ≤ s.halfSize := by
  simp only [preWF, Bool.and_eq_true, Bool.or_eq_true, decide_eq_true_eq]
    at hwf
  exact hwf.1.1

theorem preWF_entry {s : RState} (hwf : preWF s = true) {r a : Nat}
    (hra : tEntry s r = some a) :
    (s.pool ≤ a ∧ a < s.pool + s.poolSize) ∧
    ∃ v, s.mem a = some v ∧ v.refCount < RCMOD ∧ 1 ≤ v.vsize := by
  have hmem : (some a) ∈ s.table := by
    have hlt : r < s.table.length := tEntry_some_lt hra
    rw [tEntry, List.getD_eq_getElem s.table none hlt] at hra
    rw [← hra]
    exact List.getElem_mem hlt
  simp only [preWF, Bool.and_eq_true, List.all_eq_true] at hwf
  have hok := hwf.1.2 (some a) hmem
  dsimp only at hok
  simp only [entryOK, Bool.and_eq_true, decide_eq_true_eq] at hok
  obtain ⟨⟨h1, h2⟩, h3⟩ := hok
  cases hv : s.mem a with
  | none => rw [hv] at h3; exact absurd h3 (by simp)
  | some v =>
    rw [hv] at h3
    simp only [Bool.and_eq_true, decide_eq_true_eq] at h3
    exact ⟨⟨h1, h2⟩, v, rfl, h3.1, h3.2⟩

theorem preWF_injT {s : RState} (hwf : preWF s = true) : injT s = true := by
  simp only [preWF, Bool.and_eq_true] at hwf
  exact hwf.2

/-- Table entries of a well-formed state live in the from-space half, which
is disjoint from the region the collector re-initializes onto the to-space. -/
theorem flip_disjoint {s : RState} (hwf : preWF s = true) {a : Nat}
    (h1 : s.pool ≤ a) (h2 : a < s.pool + s.poolSize) :
    ¬ (s.to_pool ≤ a ∧ a < s.to_pool + s.halfSize / ALIGNMENT * ALIGNMENT) := by
  have hsz : s.halfSize / ALIGNMENT * ALIGNMENT ≤ s.halfSize :=
    Nat.div_mul_le_self _ _
  obtain ⟨hh, hps⟩ := preWF_halves hwf
  rcases hh with ⟨hp, ht⟩ | ⟨hp, ht⟩ <;> omega

theorem flip_tEntry (s : RState) (r : Nat) :
    tEntry (flipState s) r = tEntry s r := rfl

theorem flip_mem_entry {s : RState} (hwf : preWF s = true) {r a : Nat}
    (hra : tEntry s r = some a) : (flipState s).mem a = s.mem a := by
  obtain ⟨⟨h1, h2⟩, -⟩ := preWF_entry hwf hra
  show (if s.to_pool ≤ a ∧ a < s.to_pool + s.halfSize / ALIGNMENT * ALIGNMENT
    then none else s.mem a) = s.mem a
  rw [if_neg (flip_disjoint hwf h1 h2)]

theorem flip_CInv {s : RState} (hwf : preWF s = true) : CInv (flipState s) := by
  refine ⟨Nat.zero_le _, ?_, ?_, ?_⟩
  · intro r a hra
    have hra' : tEntry s r = some a := hra
    obtain ⟨⟨h1, h2⟩, -⟩ := preWF_entry hwf hra'
    have hd := flip_disjoint hwf h1 h2
    right
    show a < s.to_pool ∨ s.to_pool + s.halfSize / ALIGNMENT * ALIGNMENT ≤ a
    omega
  · intro r a hra
    have hra' : tEntry s r = some a := hra
    obtain ⟨-, v, hv, hlt, hvsz⟩ := preWF_entry hwf hra'
    exact ⟨v, (flip_mem_entry hwf hra').trans hv, hlt, hvsz⟩
  · intro r r' a h1 h2
    exact injT_sound (preWF_injT hwf) r r' a h1 h2

theorem flip_inNew {s : RState} (hwf : preWF s = true) (r : Nat) :
    inNew (flipState s) r = false := by
  unfold inNew
  rw [flip_tEntry]
  cases hra : tEntry s r with
  | none => rfl
  | some a =>
    obtain ⟨⟨h1, h2⟩, -⟩ := preWF_entry hwf hra
    have hd := flip_disjoint hwf h1 h2
    show is_pool_address (flipState s) a = false
    have : ¬ (s.to_pool ≤ a ∧
        a < s.to_pool + s.halfSize / ALIGNMENT * ALIGNMENT) := hd
    simp only [is_pool_address, Bool.and_eq_false_iff, decide_eq_false_iff_not]
    show ¬ s.to_pool ≤ a ∨ ¬ a < s.to_pool + s.halfSize / ALIGNMENT * ALIGNMENT
    omega

theorem flip_payload {s : RState} (hwf : preWF s = true) (r : Nat) :
    payloadAt (flipState s) r = payloadAt s r :=
  payloadAt_eq_of (flip_tEntry s r) (fun a ha => flip_mem_entry hwf ha)

theorem flip_children {s : RState} (hwf : preWF s = true) (r : Nat) :
    childrenOf (flipState s) r = childrenOf s r :=
  childrenOf_eq_of (flip_tEntry s r) (fun a ha => flip_mem_entry hwf ha)

/-- The sweep of `clean_cycles`, entrywise: an entry survives exactly when it
points into the (new) active half-space. -/
theorem tEntry_clean (s : RState) (r : Nat) :
    tEntry (clean_cycles s) r =
      match tEntry s r with
      | some a => if is_pool_address s a then some a else none
      | none => none := by
  show (s.table.map _).getD r none = _
  rw [tEntry, List.getD_eq_getElem?_getD, List.getD_eq_getElem?_getD,
    List.getElem?_map]
  cases s.table[r]? with
  | none => rfl
  | some e =>
    cases e with
    | none => rfl
    | some a => rfl

/-- Unpacking a successful `collect_garbage` run: there is an intermediate
post-evacuation state satisfying the `move` contract from the flipped
allocator; the final state keeps its memory and allocator geometry and its
table is the sweep of its table. -/
theorem collect_garbage_inv {fuel : Nat} {roots : List Int} {s s' : RState}
    (hwf : preWF s = true) (hrun : collect_garbage fuel roots s = some s') :
    ∃ s2, MoveOut (flipState s) (Sum.inr roots) s2 ∧
      s'.mem = s2.mem ∧ s'.allocBase = s2.allocBase ∧
      s'.poolSize = s2.poolSize ∧ numRefs s' = numRefs s2 ∧
      (∀ r, tEntry s' r =
        match tEntry s2 r with
        | some a => if is_pool_address s2 a then some a else none
        | none => none) := by
  simp only [collect_garbage] at hrun
  cases hm2 : moveA fuel
      (mm_init (s.halfSize / ALIGNMENT * ALIGNMENT) s.to_pool s)
      (Sum.inr roots) with
  | none => rw [hm2] at hrun; exact absurd hrun (by simp)
  | some s2 =>
    rw [hm2] at hrun
    dsimp only at hrun
    obtain rfl := Option.some.inj hrun
    refine ⟨s2, moveA_spec fuel (flipState s) (Sum.inr roots) s2 hm2
      (flip_CInv hwf), rfl, rfl, rfl, ?_, ?_⟩
    · show (s2.table.map _).length = s2.table.length
      exact List.length_map _ _
    · intro r
      exact tEntry_clean s2 r

/-- **C1.** A purely internal cycle — more generally any table index not
reachable from a root — is reclaimed entirely by one `collect_garbage` call:
its table entry is emptied; and after the sweep every surviving entry points
into the new active half-space (everything left outside was emptied). -/
theorem collect_reclaims_unreachable (fuel : Nat) (roots : List Int)
    (s s' : RState) (hwf : preWF s = true)
    (hrun : collect_garbage fuel roots s = some s') (r : Nat)
    (hunr : ¬ ∃ g ∈ roots, 0 ≤ g ∧
      Reach (fun v => childrenOf s v) g.toNat r) :
    tEntry s' r = none ∧
    ∀ q a, tEntry s' q = some a → is_pool_address s' a = true := by
  obtain ⟨s2, M, hmem, hbase, hps, hnum, hte⟩ := collect_garbage_inv hwf hrun
  constructor
  · have hnotnew : inNew s2 r = false := by
      cases hnew : inNew s2 r
      · rfl
      · exfalso
        rcases M.reach r hnew with h1 | h1
        · rw [flip_inNew hwf r] at h1
          exact Bool.noConfusion h1
        · obtain ⟨c, hcr, hc0, hR⟩ := h1
          refine hunr ⟨c, hcr, hc0, ?_⟩
          have hg : (fun v => childrenOf (flipState s) v)
              = (fun v => childrenOf s v) := funext (flip_children hwf)
          rwa [hg] at hR
    rw [hte r]
    unfold inNew at hnotnew
    cases h2 : tEntry s2 r with
    | none => rfl
    | some a =>
      rw [h2] at hnotnew
      dsimp only at hnotnew ⊢
      rw [if_neg (by rw [hnotnew]; exact Bool.false_ne_true)]
  · intro q a hqa
    rw [hte q] at hqa
    cases h2 : tEntry s2 q with
    | none => rw [h2] at hqa; exact Option.noConfusion hqa
    | some b =>
      rw [h2] at hqa
      dsimp only at hqa
      by_cases hp : is_pool_address s2 b = true
      · rw [if_pos hp] at hqa
        cases Option.some.inj hqa
        rw [is_pool_address_iff, hbase, hps]
        exact is_pool_address_iff.mp hp
      · rw [if_neg hp] at hqa
        exact Option.noConfusion hqa

/-- **C1 witness**: collecting the two-value cycle of `sCyc` with no roots
empties both table entries, and every surviving entry (there are none) is in
the new half-space. -/
theorem collect_reclaims_unreachable_witness :
    preWF sCyc = true ∧ tEntry runE 0 = none ∧
    ∀ q a, tEntry runE q = some a → is_pool_address runE a = true := by
  have h := collect_reclaims_unreachable 1 [] sCyc runE (by decide) rfl 0
    (by rintro ⟨g, hg, -⟩; exact absurd hg (List.not_mem_nil g))
  exact ⟨by decide, h.1, h.2⟩

/-- **C2.** `collect_garbage` re-derives exact reference counts: a surviving
table index ends with `ref_count` equal to the number of root edges plus the
number of composite-child edges reaching it in the collected heap (modulo
the unsigned width, removed here by a representability bound). -/
theorem collect_rebuilds_refcounts (fuel : Nat) (roots : List Int)
    (s s' : RState) (hwf : preWF s = true)
    (hrun : collect_garbage fuel roots s = some s') (r : Nat)
    (hne : tEntry s' r ≠ none)
    (hlt : roots.count (r : Int) + liveEdges s' r < RCMOD) :
    rcAt s' r = some (roots.count (r : Int) + liveEdges s' r) := by
  obtain ⟨s2, M, hmem, hbase, hps, hnum, hte⟩ := collect_garbage_inv hwf hrun
  have hnew : inNew s2 r = true := by
    cases hn : inNew s2 r
    · exfalso
      apply hne
      rw [hte r]
      unfold inNew at hn
      cases h2 : tEntry s2 r with
      | none => rfl
      | some a =>
        rw [h2] at hn
        dsimp only at hn ⊢
        rw [if_neg (by rw [hn]; exact Bool.false_ne_true)]
    · rfl
  have hts : tEntry s' r = tEntry s2 r := by
    obtain ⟨a, ha, hpa⟩ := inNew_some hnew
    rw [hte r, ha]
    dsimp only
    rw [if_pos hpa]
  have hrc : rcAt s' r = rcAt s2 r :=
    rcAt_eq_of hts (fun a _ => congrFun hmem a)
  obtain ⟨a, ha, hpa⟩ := inNew_some hnew
  obtain ⟨v, hv, hvlt, -⟩ := M.inv.backed r a ha
  have hrc2 : rcAt s2 r = some v.refCount := by
    unfold rcAt
    rw [ha]
    dsimp only
    rw [hv]
    rfl
  have hget : rcGet s2 r = v.refCount := by
    rw [rcGet, hrc2]
    rfl
  have hcount := M.count r hnew
  rw [flip_inNew hwf r, if_neg Bool.false_ne_true, Nat.zero_add] at hcount
  have hnum1 : numRefs (flipState s) = numRefs s2 := M.tlen.symm
  have hedges : liveEdges s' r = edgesNew (flipState s) s2 r := by
    unfold liveEdges edgesNew
    rw [hnum, hnum1]
    apply sumf_congr
    intro w hw
    cases hv2 : inNew s2 w with
    | false =>
      have hnone : tEntry s' w = none := by
        rw [hte w]
        unfold inNew at hv2
        cases h3 : tEntry s2 w with
        | none => rfl
        | some b =>
          rw [h3] at hv2
          dsimp only at hv2 ⊢
          rw [if_neg (by rw [hv2]; exact Bool.false_ne_true)]
      rw [if_pos hnone, if_neg (fun hcon => Bool.false_ne_true hcon.1)]
    | true =>
      have hts2 : tEntry s' w = tEntry s2 w := by
        obtain ⟨b, hb, hpb⟩ := inNew_some hv2
        rw [hte w, hb]
        dsimp only
        rw [if_pos hpb]
      have hnn : ¬ tEntry s' w = none := by
        obtain ⟨b, hb, -⟩ := inNew_some hv2
        rw [hts2, hb]
        exact fun hcon => Option.noConfusion hcon
      rw [if_neg hnn, if_pos ⟨rfl, flip_inNew hwf w⟩]
      have hc1 : childrenOf s' w = childrenOf s2 w :=
        childrenOf_eq_of hts2 (fun b _ => congrFun hmem b)
      rw [hc1, M.child w]
  rw [hrc, hrc2]
  congr 1
  have harr : arrCount (Sum.inr roots) r = roots.count (r : Int) := rfl
  rw [← hget, hcount, harr, ← hedges]
  exact Nat.mod_eq_of_lt hlt

/-- **C2 witness**: collecting the DAG `sDag` (root R → X, R → Y, Y → X)
from root handle 0 leaves X (handle 1) with `ref_count` 2 — one edge from R
and one from Y. -/
theorem collect_rebuilds_refcounts_witness :
    preWF sDag = true ∧ tEntry runF 1 ≠ none ∧ rcAt runF 1 = some 2 := by
  have h := collect_rebuilds_refcounts 10 [0] sDag runF (by decide) rfl 1
    (by decide) (by decide)
  exact ⟨by decide, by decide, h.trans (by decide)⟩

/-- **C3.** A handle whose target is reachable from a root keeps its integer
identity across `collect_garbage`: the same index still dereferences to a
non-empty entry, and the payload behind it (type, size, child handles,
scalar) is unchanged — only the pointer may differ. -/
theorem collect_preserves_reachable_handles (fuel : Nat) (roots : List Int)
    (s s' : RState) (hwf : preWF s = true)
    (hrun : collect_garbage fuel roots s = some s')
    (g : Int) (hg : g ∈ roots) (hg0 : 0 ≤ g) (r : Nat)
    (hreach : Reach (fun v => childrenOf s v) g.toNat r) :
    tEntry s' r ≠ none ∧ payloadAt s' r = payloadAt s r := by
  obtain ⟨s2, M, hmem, hbase, hps, hnum, hte⟩ := collect_garbage_inv hwf hrun
  have hstep : ∀ x q, Reach (fun v => childrenOf s v) x q →
      inNew s2 x = true → inNew s2 q = true := by
    intro x q hR
    induction hR with
    | refl => exact fun h => h
    | @step x' q' c hc hc0 h ih =>
      intro hx
      apply ih
      have hc' : c ∈ childrenOf s x' := hc
      have hc1 : c ∈ childrenOf (flipState s) x' := by
        rw [flip_children hwf]
        exact hc'
      exact M.closed x' hx (flip_inNew hwf x') c hc1 hc0
  have hbase0 : inNew s2 g.toNat = true := M.evac g hg hg0
  have hnewr : inNew s2 r = true := hstep g.toNat r hreach hbase0
  have hts : tEntry s' r = tEntry s2 r := by
    obtain ⟨a, ha, hpa⟩ := inNew_some hnewr
    rw [hte r, ha]
    dsimp only
    rw [if_pos hpa]
  constructor
  · obtain ⟨a, ha, -⟩ := inNew_some hnewr
    rw [hts, ha]
    exact fun hcon => Option.noConfusion hcon
  · have h1 : payloadAt s' r = payloadAt s2 r :=
      payloadAt_eq_of hts (fun a _ => congrFun hmem a)
    rw [h1, M.payload r, flip_payload hwf r]

/-- **C3 witness**: after collecting `sDag` from root 0, handle 1 (reached
via the root's first child edge) still dereferences to a non-empty entry
holding the same payload as before the collection. -/
theorem collect_preserves_reachable_handles_witness :
    preWF sDag = true ∧ (0 : Int) ∈ ([0] : List Int) ∧
    tEntry runF 1 ≠ none ∧ payloadAt runF 1 = payloadAt sDag 1 := by
  have h := collect_preserves_reachable_handles 10 [0] sDag runF (by decide)
    rfl 0 (by decide) (by decide) 1
    (Reach.step 1 (by decide) (by decide) (Reach.refl 1))
  exact ⟨by decide, by decide, h.1, h.2⟩

/-- **C5.** `decref` on a sentinel is a no-op and otherwise decrements; on
reaching zero it decrefs every child via the shared traversal, frees the
value, and empties the table entry — so dropping the last handle `h` to an
acyclic structure `L` of N values (each value's `ref_count` accounting
exactly for the dropped handle plus its in-region in-degree, children
staying inside the region, `rank` certifying acyclicity) empties exactly the
N entries of `L`: all of them become empty and every entry outside `L` is
untouched. -/
theorem decref_reclaims_acyclic :
    ∀ (fuel : Nat) (s s' : RState) (h : Int) (L : List Nat) (rank : Nat → Nat),
      decref fuel s h = some s' →
      0 ≤ h → h.toNat ∈ L → L.Nodup →
      (∀ r ∈ L, r < numRefs s) →
      (∀ r ∈ L, entryCheck s L h r = true) →
      injT s = true →
      (∀ r ∈ L, ∀ c ∈ childrenOf s r, 0 ≤ c → c.toNat ∈ L →
        rank r < rank c.toNat) →
      (∀ r ∈ L, tEntry s' r = none) ∧
      (∀ j, j ∉ L → tEntry s' j = tEntry s j) ∧
      s'.table.length = s.table.length := by
  intro fuel s s' h L rank hrun h0 hhL hnd hlt hck hinj hrank
  have hinv : DecInv s L (argList (Sum.inl h) ++ []) := by
    refine ⟨hnd, hlt, ?_, ?_, injT_sound hinj⟩
    · intro r hr
      obtain ⟨a, v, h1, h2, h3, h4, h5, h6⟩ := entryCheck_sound (hck r hr)
      refine ⟨a, v, h1, h2, h3, h4, ?_, h6⟩
      rw [h5]
      congr 1
      simp only [argList, List.count_cons, List.count_nil, List.append_nil,
        Nat.zero_add]
      by_cases hh : ((r : Nat) : Int) = h
      · simp [hh]
      · simp [hh, Ne.symm hh]
    · intro c hc
      simp only [argList, List.append_nil, List.mem_singleton] at hc
      subst hc
      exact Or.inr (Or.inr ⟨h0, hhL⟩)
  obtain ⟨L', hsub, hinv', hemp, hfr, _, hsurv, hlen⟩ :=
    decrefA_region fuel s (Sum.inl h) s' L [] hrun hinv
  have hLempty : L' = [] := by
    cases harg : L'.argmin rank with
    | none => exact List.argmin_eq_none.mp harg
    | some m =>
      exfalso
      have hmm : m ∈ L'.argmin rank := by rw [harg]; rfl
      have hmL' : m ∈ L' := List.argmin_mem hmm
      obtain ⟨a, v, h1, h2, h3, h4, h5, h6⟩ := hinv'.entry m hmL'
      have hpos : 0 < inDeg s' L' m := by
        simp only [List.count_nil] at h5
        omega
      obtain ⟨y, hy, hxy⟩ := inDeg_pos_exists hpos
      have hxy' : ((m : Nat) : Int) ∈ childrenOf s y := by
        rw [← (hsurv y hy).2]
        exact hxy
      have hlt2 := hrank y (hsub y hy) _ hxy' (Int.natCast_nonneg m)
        (by simpa using hsub m hmL')
      rw [Int.toNat_natCast] at hlt2
      exact absurd hlt2 (Nat.not_lt.mpr (List.le_of_mem_argmin hy hmm))
  subst hLempty
  refine ⟨?_, hfr, hlen⟩
  intro r hr
  exact hemp r hr (by simp)

/-- Witness for C5: dropping the last handle to the concrete 3-value acyclic
structure (list → backing array → int) empties exactly its 3 table entries. -/
theorem decref_reclaims_acyclic_witness :
    tEntry runD 0 = none ∧ tEntry runD 1 = none ∧ tEntry runD 2 = none ∧
    runD.table.length = 3 := by
  have hrun : decref 10 sAcy 0 = some runD := rfl
  obtain ⟨hall, _, hlen⟩ :=
    decref_reclaims_acyclic 10 sAcy runD 0 [0, 1, 2] (fun n => n) hrun
      (by decide) (by decide) (by decide) (by decide) (by decide) (by decide)
      (by decide)
  exact ⟨hall 0 (by decide), hall 1 (by decide), hall 2 (by decide),
    by rw [hlen]; rfl⟩

/-- **C4.** The claim says `incref` on a sentinel handle is a silent no-op.
The code (`refs.c` lines 199–202) has no sentinel guard — unlike `decref`
(line 212) and `move` (line 233) — so `incref(NULL_REF)`/`incref(TOMBSTONE_REF)`
calls `deref`, whose range assertion `ref >= 0 && ref < num_refs` (line 141)
fails on the negative sentinel: the run aborts (modelled `none`) in every
state, instead of completing without failure. -/
theorem incref_sentinel_crashes :
    ∀ s : RState, incref s NULL_REF = none ∧ incref s TOMBSTONE_REF = none := by
  intro s
  constructor <;> simp [incref, deref, NULL_REF, TOMBSTONE_REF]

/-- **C10.** For an in-range handle whose table entry has been emptied,
`deref` passes its range assertion and returns the null pointer silently:
no check rejects an empty entry (the pool assertion is commented out,
line 147). -/
theorem deref_empty_inrange_null :
    ∀ (s : RState) (r : Int), 0 ≤ r → r < (numRefs s : Int) →
      tEntry s r.toNat = none → deref s r = some none := by
  intro s r h0 h1 he
  simp [deref, h0, h1, he]

/-- Witness for C10: a concrete in-range emptied entry, dereferenced. -/
theorem deref_empty_inrange_null_witness : deref sEmptied 0 = some none :=
  deref_empty_inrange_null sEmptied 0 (by decide) (by decide) (by decide)

/-- **C7, counterexample.** The claim says `deref` asserts that the
dereferenced target lies within the active half-space.  It does not: the
`is_pool_address` assertion is commented out (`refs.c` line 147).  In the
concrete state `sOut` (the configuration every un-evacuated value is in
during a collection) `deref` succeeds and returns a pointer for which
`is_pool_address` is false — an enabled assertion would have fired. -/
theorem deref_pool_assert_cex :
    deref sOut 0 = some (some 999) ∧ is_pool_address sOut 999 = false := by
  constructor <;> decide

/-- **C7, amended.** `deref` enforces only the range precondition by
assertion: out-of-range handles abort (modelled `none`), and every in-range
handle returns the raw table entry with no check on the pointer (the
`is_pool_address` assertion is commented out in the source — necessarily,
since `move` dereferences not-yet-evacuated values during collection). -/
theorem deref_range_assert_only :
    ∀ (s : RState) (r : Int),
      (¬ (0 ≤ r ∧ r < (numRefs s : Int)) → deref s r = none) ∧
      (0 ≤ r → r < (numRefs s : Int) → deref s r = some (tEntry s r.toNat)) := by
  intro s r
  constructor
  · intro h
    simp [deref, h]
  · intro h0 h1
    simp [deref, h0, h1]

/-- Witness for the amended C7: an out-of-range handle aborts, an in-range
handle is returned unchecked even though its target is outside the active
half-space. -/
theorem deref_range_assert_only_witness :
    deref sOut 5 = none ∧ deref sOut 0 = some (some 999) :=
  ⟨(deref_range_assert_only sOut 5).1 (by decide),
   (deref_range_assert_only sOut 0).2 (by decide) (by decide)⟩

/-- **C8.** When the table has no empty slot and `num_refs == max_refs`,
`assign_reference` grows the capacity geometrically — `INITIAL_SIZE` when it
was `0`, doubling otherwise — and appends; when the reallocation fails the
run is fatal (`fprintf` + `exit(1)`, modelled `none`): no reference is ever
returned to the caller on that path. -/
theorem table_growth_geometric_fatal :
    ∀ (s : RState) (a : Nat), firstEmpty s.table = none →
      s.table.length = s.maxRefs →
      assign_reference false a s = none ∧
      ∃ s', assign_reference true a s = some (s', (s.table.length : Int)) ∧
        s'.maxRefs = (if s.maxRefs = 0 then INITIAL_SIZE else 2 * s.maxRefs) ∧
        s'.table = s.table ++ [some a] := by
  intro s a hfe hlen
  constructor
  · simp [assign_reference, hfe, hlen]
  · refine ⟨{ s with
        maxRefs := if s.maxRefs = 0 then INITIAL_SIZE else 2 * s.maxRefs,
        table := s.table ++ [some a] }, ?_, rfl, rfl⟩
    simp [assign_reference, hfe, hlen]

/-- Witness for C8: a concrete full table of capacity 1; the failing
reallocation is fatal, the successful one doubles the capacity to 2. -/
theorem table_growth_geometric_fatal_witness :
    assign_reference false 16 sFull = none ∧
    ∃ s', assign_reference true 16 sFull = some (s', 1) ∧ s'.maxRefs = 2 := by
  obtain ⟨h1, s', h2, h3, h4⟩ :=
    table_growth_geometric_fatal sFull 16 (by decide) (by decide)
  refine ⟨h1, s', ?_, ?_⟩
  · simpa using h2
  · simpa using h3

/-- **C9.** `make_ref` is atomic on allocator exhaustion: when the pool
cannot satisfy the rounded-up request, `mm_malloc` returns `NULL` before any
table operation, and `make_ref` returns `NULL_REF` with the state — table,
`num_refs`, `max_refs`, every entry — literally unchanged. -/
theorem make_ref_exhaustion_atomic :
    ∀ (s : RState) (reallocOk : Bool) (ty : VType) (size : Nat),
      s.poolSize < s.bump + (size + ALIGNMENT - 1) / ALIGNMENT * ALIGNMENT →
      make_ref reallocOk ty size s = some (s, NULL_REF) := by
  intro s ro ty size h
  have hn : ¬ (s.bump + (size + ALIGNMENT - 1) / ALIGNMENT * ALIGNMENT ≤ s.poolSize) := by
    omega
  simp [make_ref, mm_malloc, hn]

/-- Witness for C9: a pool with 8 free bytes rejects a 16-byte request and
returns `NULL_REF` with the state unchanged. -/
theorem make_ref_exhaustion_atomic_witness :
    make_ref true VType.int 16 sTight = some (sTight, NULL_REF) :=
  make_ref_exhaustion_atomic sTight true VType.int 16 (by decide)

end Refs
